import Mathlib

/-!
Verification of the traffic-shaping script compiler
(`states/_modules/shaping.py`): the identifier allocator (`Counters`),
the tree compiler (`_qdisc_info`, `_tc_comment`, `_tc_qdisc`, `_tc_class`)
and the script assembler (`_compile_tc`, `build_tc_script`), shallowly
embedded in Lean.  Python strings are modelled as `List Char`, the output
stream as the list of chunks passed to `stream.write`, and exceptions as
`Except`.
-/

/-- Strings are modelled as lists of characters. -/
abbrev Str := List Char

/-- Whitespace, as recognised by `str.strip()` for the characters that occur
in this development. -/
def ws (c : Char) : Bool := c.isWhitespace

/-- Drop leading whitespace. -/
def lstrip (s : Str) : Str := s.dropWhile ws

/-- Drop trailing whitespace. -/
def rstrip (s : Str) : Str := (s.reverse.dropWhile ws).reverse

/-- Python `str.strip()`: drop leading and trailing whitespace. -/
def strip (s : Str) : Str := rstrip (lstrip s)

/-- Decimal rendering of a natural number, as Python `str.format` renders an
`int`. -/
def natStr (n : Nat) : Str := Nat.toDigits 10 n

/-- The state of a `Counters` object: the `self.qdiscs` list. -/
abbrev CState := List Nat

/-- `Counters.__init__`: `self.qdiscs = [0]`. -/
def counterInit : CState := [0]

/-- `Counters.get_qdisc_id`: append `start - 1` to `self.qdiscs` and return
`len(self.qdiscs) - 1`. -/
def get_qdisc_id (start : Nat) (st : CState) : Nat × CState :=
  let st1 := st ++ [start - 1]
  (st1.length - 1, st1)

/-- `Counters.get_class_id`: increment `self.qdiscs[qdisc_id]` and return the
new value.  (The compiler only ever calls this with a registered, in-range
qdisc id, so the out-of-range default never arises on its call sites.) -/
def get_class_id (qdisc_id : Nat) (st : CState) : Nat × CState :=
  let v := st.getD qdisc_id 0 + 1
  (v, st.set qdisc_id v)

mutual

/-- A qdisc node: `type` (possibly missing), `options` (absent is rendered
identically to empty, so both are the empty string here), an optional
`comment`, and the `classes` list. -/
inductive QdiscNode : Type where
  | mk (type : Option Str) (options : Str) (comment : Option Str)
       (classes : List ClassNode) : QdiscNode

/-- A class node: an optional explicit `id` override, `options`, an optional
`comment`, the `filters` list, an optional nested `qdisc` and the nested
`classes` list. -/
inductive ClassNode : Type where
  | mk (id : Option Nat) (options : Str) (comment : Option Str)
       (filters : List Str) (qdisc : Option QdiscNode)
       (classes : List ClassNode) : ClassNode

end

def QdiscNode.qtype : QdiscNode → Option Str
  | .mk t _ _ _ => t

def QdiscNode.options : QdiscNode → Str
  | .mk _ o _ _ => o

def QdiscNode.comment : QdiscNode → Option Str
  | .mk _ _ c _ => c

def QdiscNode.classes : QdiscNode → List ClassNode
  | .mk _ _ _ cs => cs

def ClassNode.idOverride : ClassNode → Option Nat
  | .mk i _ _ _ _ _ => i

def ClassNode.options : ClassNode → Str
  | .mk _ o _ _ _ _ => o

def ClassNode.comment : ClassNode → Option Str
  | .mk _ _ c _ _ _ => c

def ClassNode.filters : ClassNode → List Str
  | .mk _ _ _ f _ _ => f

def ClassNode.qdisc : ClassNode → Option QdiscNode
  | .mk _ _ _ _ q _ => q

def ClassNode.classes : ClassNode → List ClassNode
  | .mk _ _ _ _ _ cs => cs

/-- The error message of `_qdisc_info` for a qdisc with no `type` key. -/
def msgMissingType : Str := "Missing \x27type\x27 for qdisc".data

/-- The error message of `build_tc_script` when no qdisc is passed. -/
def msgNoQdisc : Str := "No qdisc passed".data

/-- `_tc_comment`: writes one chunk `'\n# {comment}\n'` when a comment is
present, nothing otherwise. -/
def tc_comment (c : Option Str) : List Str :=
  match c with
  | some cm => ["\n# ".data ++ cm ++ "\n".data]
  | none => []

/-- `_qdisc_info`: fails when `type` is missing; otherwise allocates a qdisc
id (class-id base 1 for `prio`, 100 otherwise), and returns the stripped
`"handle {_id}: {type} {options}"` string together with the allocated id
(the Python stores the id on the node as `_id`) and the updated counters. -/
def qdisc_info (q : QdiscNode) (st : CState) : Except Str (Str × Nat × CState) :=
  match q with
  | .mk none _ _ _ => .error msgMissingType
  | .mk (some t) opts _ _ =>
      let cls_start : Nat := if t = "prio".data then 1 else 100
      let r := get_qdisc_id cls_start st
      .ok (strip ("handle ".data ++ natStr r.1 ++ ": ".data ++ t ++ " ".data ++ opts),
           r.1, r.2)

/-- The chunk written for a qdisc: `"tc qdisc add dev {iface} {parent} {info}\n"`. -/
def qdiscLine (iface parent info : Str) : Str :=
  "tc qdisc add dev ".data ++ iface ++ " ".data ++ parent ++ " ".data ++
    info ++ "\n".data

/-- The chunk written per filter:
`'tc filter add dev {iface} parent {filter_parent}: u32 {match} flowid {parent_qdisc}:{id}\n'`. -/
def filterLine (iface : Str) (filter_parent : Nat) (m : Str)
    (parent_qdisc idv : Nat) : Str :=
  "tc filter add dev ".data ++ iface ++ " parent ".data ++
    natStr filter_parent ++ ": u32 ".data ++ m ++ " flowid ".data ++
    natStr parent_qdisc ++ ":".data ++ natStr idv ++ "\n".data

/-- The chunk written for a class:
`'tc class add dev {iface} parent {parent_qdisc}:{parent_cls} classid {parent_qdisc}:{id} {qdisc_type} {options}\n'`
(note: unlike the qdisc info string, this one is not stripped). -/
def classLine (iface : Str) (parent_qdisc : Nat) (parent_cls : Str)
    (idv : Nat) (qdisc_type opts : Str) : Str :=
  "tc class add dev ".data ++ iface ++ " parent ".data ++ natStr parent_qdisc ++
    ":".data ++ parent_cls ++ " classid ".data ++ natStr parent_qdisc ++
    ":".data ++ natStr idv ++ " ".data ++ qdisc_type ++ " ".data ++ opts ++
    "\n".data

mutual

/-- `_tc_qdisc`: emits the optional comment chunk and the
`tc qdisc add` command, then renders the classes with this qdisc's type and
freshly allocated id. -/
def tc_qdisc (q : QdiscNode) (iface : Str) (parent_qdisc : Option Nat)
    (parent_cls : Str) (st : CState) : Except Str (List Str × CState) :=
  match q with
  | .mk t opts cmt classes =>
    match qdisc_info (.mk t opts cmt classes) st with
    | .error e => .error e
    | .ok (info, qid, st1) =>
      let parent : Str :=
        match parent_qdisc with
        | some p => "parent ".data ++ natStr p ++ ":".data ++ parent_cls
        | none => "root".data
      let line := qdiscLine iface parent info
      match tc_classes classes iface (t.getD []) qid [] st1 with
      | .error e => .error e
      | .ok (out, st2) => .ok (tc_comment cmt ++ line :: out, st2)

/-- The `for cls in qdisc.get('classes', ())` / `for subcls in
cls.get('classes', ())` loops: renders each class in order, threading the
counters. -/
def tc_classes (cs : List ClassNode) (iface : Str) (qdisc_type : Str)
    (parent_qdisc : Nat) (parent_cls : Str) (st : CState) :
    Except Str (List Str × CState) :=
  match cs with
  | [] => .ok ([], st)
  | c :: rest =>
    match tc_class c iface qdisc_type parent_qdisc parent_cls st with
    | .error e => .error e
    | .ok (out1, st1) =>
      match tc_classes rest iface qdisc_type parent_qdisc parent_cls st1 with
      | .error e => .error e
      | .ok (out2, st2) => .ok (out1 ++ out2, st2)

/-- `_tc_class`: allocates a class id (overridden by an explicit `id` key on
the node, mirroring `params.update(cls)`), emits the optional comment chunk,
one filter chunk per filter (parent `1` for `htb`, the owning qdisc id
otherwise), the class-creation chunk unless the owning type is `prio`, then
the optional nested qdisc and the nested classes. -/
def tc_class (c : ClassNode) (iface : Str) (qdisc_type : Str)
    (parent_qdisc : Nat) (parent_cls : Str) (st : CState) :
    Except Str (List Str × CState) :=
  match c with
  | .mk idOv opts cmt filters nested subcls =>
    let r := get_class_id parent_qdisc st
    let id := idOv.getD r.1
    let st1 := r.2
    let filter_parent : Nat := if qdisc_type = "htb".data then 1 else parent_qdisc
    let filterChunks := filters.map
      (fun m => filterLine iface filter_parent m parent_qdisc id)
    let classChunks : List Str :=
      if qdisc_type = "prio".data then [] else
        [classLine iface parent_qdisc parent_cls id qdisc_type opts]
    match nested with
    | some nq =>
      match tc_qdisc nq iface (some parent_qdisc) (natStr id) st1 with
      | .error e => .error e
      | .ok (outN, st2) =>
        match tc_classes subcls iface qdisc_type parent_qdisc (natStr id) st2 with
        | .error e => .error e
        | .ok (outS, st3) =>
          .ok (tc_comment cmt ++ filterChunks ++ classChunks ++ outN ++ outS, st3)
    | none =>
      match tc_classes subcls iface qdisc_type parent_qdisc (natStr id) st1 with
      | .error e => .error e
      | .ok (outS, st3) =>
        .ok (tc_comment cmt ++ filterChunks ++ classChunks ++ outS, st3)

end

/-- The three preamble chunks of `_compile_tc`: interpreter directive,
fail-fast directive, and the banner naming the interface. -/
def preamble (iface : Str) : List Str :=
  ["#!/bin/bash\n".data, "set -e\n\n".data,
   "## AUTOGENERATED TC FOR ".data ++ iface ++ " - DO NOT EDIT ##\n".data]

/-- The reset chunk of `_compile_tc`: delete any existing root discipline,
tolerating absence via `|| true`. -/
def resetLine (iface : Str) : Str :=
  "tc qdisc del dev ".data ++ iface ++ " root || true\n".data

/-- `_compile_tc`: preamble, root comment, reset command, then the compiled
stream of the root qdisc with a fresh `Counters` and no parent.  On error the
exception propagates to the caller: `build_tc_script` then returns nothing,
so an `Except.error` carries no script text. -/
def compile_tc (iface : Str) (q : QdiscNode) : Except Str (List Str) :=
  match tc_qdisc q iface none [] counterInit with
  | .error e => .error e
  | .ok (out, _) =>
      .ok (preamble iface ++ tc_comment q.comment ++ resetLine iface :: out)

/-- `build_tc_script` (testing path): fails when no qdisc is passed,
otherwise compiles.  `none` models the falsy root argument. -/
def build_tc_script (iface : Str) (q : Option QdiscNode) : Except Str (List Str) :=
  match q with
  | none => .error msgNoQdisc
  | some q => compile_tc iface q

/-- The script text: the concatenation of all chunks written to the stream. -/
def textOf (chunks : List Str) : Str := chunks.flatten

/-- Split a string into lines at `'\n'` (the final newline produces a final
empty line, as with any splitting at separators). -/
def linesOf : Str → List Str
  | [] => [[]]
  | c :: rest =>
    if c = '\n' then [] :: linesOf rest
    else
      match linesOf rest with
      | [] => [[c]]
      | l :: ls => (c :: l) :: ls

/-- A chunk is a qdisc generation command iff it starts with
`"tc qdisc add "`. -/
def isQdiscCmd (c : Str) : Bool := "tc qdisc add ".data.isPrefixOf c

/-- A chunk is a class-creation command iff it starts with
`"tc class add "`. -/
def isClassCmd (c : Str) : Bool := "tc class add ".data.isPrefixOf c

/-- A chunk is a filter command iff it starts with `"tc filter add "`. -/
def isFilterCmd (c : Str) : Bool := "tc filter add ".data.isPrefixOf c

/-- A chunk is the reset command iff it starts with `"tc qdisc del "`. -/
def isResetCmd (c : Str) : Bool := "tc qdisc del ".data.isPrefixOf c

/-- A command chunk is addressed with handle `n` when it contains
`" handle n:"`. -/
def hasHandle (c : Str) (n : Nat) : Prop :=
  (" handle ".data ++ natStr n ++ ":".data) <:+: c

mutual

/-- Number of qdisc nodes in a qdisc subtree. -/
def countQ : QdiscNode → Nat
  | .mk _ _ _ cls => 1 + countCs cls

/-- Number of qdisc nodes in a list of class subtrees. -/
def countCs : List ClassNode → Nat
  | [] => 0
  | c :: rest => countC c + countCs rest

/-- Number of qdisc nodes in a class subtree. -/
def countC : ClassNode → Nat
  | .mk _ _ _ _ nested cls =>
      (match nested with
       | some nq => countQ nq
       | none => 0) + countCs cls

end

/-! ### String lemmas -/

lemma lstrip_cons_of_not_ws (c : Char) (l : Str) (hc : ws c = false) :
    lstrip (c :: l) = c :: l := by
  simp [lstrip, List.dropWhile_cons, hc]

lemma dropWhile_classify (p : Char → Bool) (l : Str) :
    l.dropWhile p = [] ∨ ∃ c t, l.dropWhile p = c :: t ∧ p c = false := by
  induction l with
  | nil => exact Or.inl rfl
  | cons c t ih =>
    by_cases h : p c
    · simpa [List.dropWhile_cons, h] using ih
    · exact Or.inr ⟨c, t, by simp [List.dropWhile_cons, h], by simpa using h⟩

lemma rstrip_append (p r : Str) (c : Char) (hlast : p.getLast? = some c)
    (hc : ws c = false) : rstrip (p ++ r) = p ++ rstrip r := by
  have hrev : p.reverse.head? = some c := by rw [List.head?_reverse]; exact hlast
  obtain ⟨t, ht⟩ : ∃ t, p.reverse = c :: t := by
    cases hp : p.reverse with
    | nil => rw [hp] at hrev; simp at hrev
    | cons a b =>
      rw [hp] at hrev; simp at hrev
      exact ⟨b, by rw [hrev]⟩
  unfold rstrip
  rw [List.reverse_append, List.dropWhile_append]
  by_cases he : (r.reverse.dropWhile ws).isEmpty
  · have h1 : r.reverse.dropWhile ws = [] := by simpa using he
    rw [if_pos (by simpa using he), h1, ht, List.dropWhile_cons, if_neg (by simp [hc])]
    simp [← ht]
  · rw [if_neg he]
    simp

lemma rstrip_last_not_ws (s : Str) :
    rstrip s = [] ∨ ∃ l c, rstrip s = l ++ [c] ∧ ws c = false := by
  rcases dropWhile_classify ws s.reverse with h | ⟨c, t, h, hc⟩
  · exact Or.inl (by simp [rstrip, h])
  · exact Or.inr ⟨t.reverse, c, by simp [rstrip, h], hc⟩

/-- The informative prefix of a qdisc info string: `"handle {id}:"`. -/
lemma strip_info (d t o : Str) :
    strip ("handle ".data ++ d ++ ": ".data ++ t ++ " ".data ++ o) =
      ("handle ".data ++ d ++ ":".data) ++ rstrip (" ".data ++ t ++ " ".data ++ o) := by
  have h1 : "handle ".data ++ d ++ ": ".data ++ t ++ " ".data ++ o =
      'h' :: ("andle ".data ++ d ++ ": ".data ++ t ++ " ".data ++ o) := by simp
  have h2 : "handle ".data ++ d ++ ": ".data ++ t ++ " ".data ++ o =
      ("handle ".data ++ d ++ ":".data) ++ (" ".data ++ t ++ " ".data ++ o) := by simp
  unfold strip
  rw [h1, lstrip_cons_of_not_ws _ _ (by decide), ← h1, h2]
  apply rstrip_append
  · rw [show "handle ".data ++ d ++ ":".data = ("handle ".data ++ d) ++ [':'] from by simp]
    exact List.getLast?_concat _
  · decide

/-! ### Chunk classification -/

/-- Every chunk emitted by the tree compiler has one of these four shapes:
a comment chunk (starting with a newline), a qdisc command, a filter command,
or a class command. -/
def ChunkShape (ch : Str) : Prop :=
  (∃ x, ch = '\n' :: x) ∨ (∃ a b c, ch = qdiscLine a b c) ∨
    (∃ a b c d e, ch = filterLine a b c d e) ∨
    (∃ a b c d e f, ch = classLine a b c d e f)

lemma isQdiscCmd_comment (x : Str) : isQdiscCmd ('\n' :: x) = false := rfl

lemma isQdiscCmd_qdiscLine (a b c : Str) : isQdiscCmd (qdiscLine a b c) = true := rfl

lemma isQdiscCmd_filterLine (a : Str) (b : Nat) (c : Str) (d e : Nat) :
    isQdiscCmd (filterLine a b c d e) = false := rfl

lemma isQdiscCmd_classLine (a : Str) (b : Nat) (c : Str) (d : Nat) (e f : Str) :
    isQdiscCmd (classLine a b c d e f) = false := rfl

lemma isClassCmd_comment (x : Str) : isClassCmd ('\n' :: x) = false := rfl

lemma isClassCmd_qdiscLine (a b c : Str) : isClassCmd (qdiscLine a b c) = false := rfl

lemma isClassCmd_filterLine (a : Str) (b : Nat) (c : Str) (d e : Nat) :
    isClassCmd (filterLine a b c d e) = false := rfl

lemma isClassCmd_classLine (a : Str) (b : Nat) (c : Str) (d : Nat) (e f : Str) :
    isClassCmd (classLine a b c d e f) = true := by
  simp only [classLine, List.append_assoc]
  exact show isClassCmd ("tc class add dev ".data ++ _) = true from rfl

lemma isResetCmd_comment (x : Str) : isResetCmd ('\n' :: x) = false := rfl

lemma isResetCmd_qdiscLine (a b c : Str) : isResetCmd (qdiscLine a b c) = false := rfl

lemma isResetCmd_filterLine (a : Str) (b : Nat) (c : Str) (d e : Nat) :
    isResetCmd (filterLine a b c d e) = false := rfl

lemma isResetCmd_classLine (a : Str) (b : Nat) (c : Str) (d : Nat) (e f : Str) :
    isResetCmd (classLine a b c d e f) = false := rfl

lemma isResetCmd_shape (ch : Str) (h : ChunkShape ch) : isResetCmd ch = false := by
  rcases h with ⟨x, rfl⟩ | ⟨a, b, c, rfl⟩ | ⟨a, b, c, d, e, rfl⟩ | ⟨a, b, c, d, e, f, rfl⟩
  · exact isResetCmd_comment x
  · exact isResetCmd_qdiscLine a b c
  · exact isResetCmd_filterLine a b c d e
  · exact isResetCmd_classLine a b c d e f

lemma commentChunk_shape (cm : Str) :
    ChunkShape ("\n# ".data ++ cm ++ "\n".data) :=
  Or.inl ⟨"# ".data ++ cm ++ "\n".data, rfl⟩

lemma tc_comment_shape (c : Option Str) : ∀ ch ∈ tc_comment c, ChunkShape ch := by
  cases c with
  | none => intro ch h; simp [tc_comment] at h
  | some cm =>
    intro ch h
    simp [tc_comment] at h
    rw [h]
    exact commentChunk_shape cm

lemma hasHandle_qdisc_line (iface parent rest : Str) (n : Nat) :
    hasHandle (qdiscLine iface parent (("handle ".data ++ natStr n ++ ":".data) ++ rest)) n := by
  refine ⟨"tc qdisc add dev ".data ++ iface ++ " ".data ++ parent, rest ++ "\n".data, ?_⟩
  unfold qdiscLine
  rw [show " handle ".data = " ".data ++ "handle ".data from rfl]
  simp [List.append_assoc]


mutual

/-- Number of class-creation commands a qdisc subtree emits. -/
def ncQ : QdiscNode → Nat
  | .mk none _ _ _ => 0
  | .mk (some t) _ _ cls => ncCs t cls

/-- Number of class-creation commands a list of classes owned by a qdisc of
type `t` emits. -/
def ncCs (t : Str) : List ClassNode → Nat
  | [] => 0
  | c :: rest => ncC t c + ncCs t rest

/-- Number of class-creation commands a class owned by a qdisc of type `t`
emits (its own, unless `t` is `prio`, plus those of its subtree). -/
def ncC (t : Str) : ClassNode → Nat
  | .mk _ _ _ _ nested cls =>
      (if t = "prio".data then 0 else 1) +
        ((match nested with
          | some nq => ncQ nq
          | none => 0) + ncCs t cls)

end

/-- The chunks `l` are command lines addressed with consecutive handles
starting at `base`. -/
def HandleSeq (l : List Str) (base : Nat) : Prop :=
  ∀ i, ∀ h : i < l.length, hasHandle (l.get ⟨i, h⟩) (base + i)

lemma handleSeq_nil (b : Nat) : HandleSeq [] b := by
  intro i h; simp at h

lemma handleSeq_cons {a : Str} {l : List Str} {b : Nat} (ha : hasHandle a b)
    (hl : HandleSeq l (b + 1)) : HandleSeq (a :: l) b := by
  intro i h
  cases i with
  | zero => simpa using ha
  | succ j =>
    have := hl j (by simpa using h)
    simpa [Nat.add_comm, Nat.add_assoc, Nat.add_left_comm] using this

lemma handleSeq_append {l1 l2 : List Str} {b : Nat} (h1 : HandleSeq l1 b)
    (h2 : HandleSeq l2 (b + l1.length)) : HandleSeq (l1 ++ l2) b := by
  intro i h
  by_cases hi : i < l1.length
  · have := h1 i hi
    have hg : (l1 ++ l2).get ⟨i, h⟩ = l1.get ⟨i, hi⟩ := by
      simp [List.getElem_append_left hi]
    rwa [hg]
  · have hle : l1.length ≤ i := Nat.le_of_not_lt hi
    have hlt : i - l1.length < l2.length := by
      have h' := h; simp [List.length_append] at h'; omega
    have h2' := h2 (i - l1.length) hlt
    have hg : (l1 ++ l2).get ⟨i, h⟩ = l2.get ⟨i - l1.length, hlt⟩ := by
      simp [List.getElem_append_right hle]
    rw [hg]
    have harith : b + l1.length + (i - l1.length) = b + i := by omega
    rwa [harith] at h2'

/-! ### Filter helpers -/

lemma filter_map_eq_nil (p : Str → Bool) (g : Str → Str) (l : List Str)
    (hg : ∀ m ∈ l, p (g m) = false) : (l.map g).filter p = [] := by
  apply List.filter_eq_nil_iff.mpr
  intro a ha
  obtain ⟨m, hm, rfl⟩ := List.mem_map.1 ha
  simp [hg m hm]

lemma filter_qdisc_tc_comment (cmt : Option Str) :
    (tc_comment cmt).filter isQdiscCmd = [] := by
  cases cmt <;> simp [tc_comment, isQdiscCmd_comment]

lemma filter_class_tc_comment (cmt : Option Str) :
    (tc_comment cmt).filter isClassCmd = [] := by
  cases cmt <;> simp [tc_comment, isClassCmd_comment]

lemma filter_ite_single_q (P : Prop) [Decidable P] (ch : Str)
    (hch : isQdiscCmd ch = false) :
    (if P then ([] : List Str) else [ch]).filter isQdiscCmd = [] := by
  by_cases hp : P
  · rw [if_pos hp]; rfl
  · rw [if_neg hp, List.filter_cons, if_neg (by simp [hch])]; rfl

lemma filter_ite_single_c (P : Prop) [Decidable P] (ch : Str)
    (hch : isClassCmd ch = true) :
    (if P then ([] : List Str) else [ch]).filter isClassCmd =
      if P then [] else [ch] := by
  by_cases hp : P
  · rw [if_pos hp]; rfl
  · rw [if_neg hp, List.filter_cons, if_pos hch]; simp

lemma length_ite_single (P : Prop) [Decidable P] (ch : Str) :
    (if P then ([] : List Str) else [ch]).length = if P then 0 else 1 := by
  by_cases hp : P <;> simp [hp]

mutual

/-- Main invariant of `_tc_qdisc`: the final counter list grows by one entry
per qdisc in the subtree; the emitted qdisc commands are exactly one per
qdisc node, addressed with consecutive handles starting at the current
counter length; the class-creation commands are counted by `ncQ`; and every
chunk has one of the four emitted shapes. -/
theorem tc_qdisc_inv : ∀ (q : QdiscNode) (iface : Str) (pq : Option Nat) (pc : Str)
    (st : CState) (out : List Str) (st' : CState),
    tc_qdisc q iface pq pc st = .ok (out, st') →
    st'.length = st.length + countQ q ∧
    (out.filter isQdiscCmd).length = countQ q ∧
    HandleSeq (out.filter isQdiscCmd) st.length ∧
    (out.filter isClassCmd).length = ncQ q ∧
    (∀ ch ∈ out, ChunkShape ch)
  | .mk none opts cmt classes, iface, pq, pc, st, out, st', h => by
      simp [tc_qdisc, qdisc_info] at h
  | .mk (some tv) opts cmt classes, iface, pq, pc, st, out, st', h => by
      simp only [tc_qdisc, qdisc_info, get_qdisc_id, Option.getD_some,
        List.length_append, List.length_cons, List.length_nil, Nat.zero_add,
        Nat.add_zero, Nat.add_sub_cancel] at h
      split at h
      · exact Except.noConfusion h
      next out2 st2 hcs =>
        simp only [Except.ok.injEq, Prod.mk.injEq] at h
        obtain ⟨hout, hst⟩ := h
        subst hout hst
        obtain ⟨IH1, IH2, IH3, IH4, IH5⟩ := tc_classes_inv classes iface tv
          st.length [] (st ++ [(if tv = "prio".data then 1 else 100) - 1])
          out2 st2 hcs
        refine ⟨?_, ?_, ?_, ?_, ?_⟩
        · rw [IH1]; simp only [List.length_append, List.length_cons,
            List.length_nil, Nat.zero_add, countQ]; omega
        · rw [List.filter_append, filter_qdisc_tc_comment, List.nil_append,
            List.filter_cons, if_pos (isQdiscCmd_qdiscLine _ _ _),
            List.length_cons, IH2]
          simp only [countQ]; omega
        · rw [List.filter_append, filter_qdisc_tc_comment, List.nil_append,
            List.filter_cons, if_pos (isQdiscCmd_qdiscLine _ _ _)]
          apply handleSeq_cons
          · rw [strip_info]
            exact hasHandle_qdisc_line _ _ _ _
          · have h3 := IH3
            simp only [List.length_append, List.length_cons, List.length_nil,
              Nat.zero_add] at h3
            exact h3
        · rw [List.filter_append, filter_class_tc_comment, List.nil_append,
            List.filter_cons, if_neg (by simp [isClassCmd_qdiscLine]), IH4]
          simp [ncQ]
        · intro ch hch
          rcases List.mem_append.1 hch with hch | hch
          · exact tc_comment_shape cmt ch hch
          · rcases List.mem_cons.1 hch with rfl | hch
            · exact Or.inr (Or.inl ⟨_, _, _, rfl⟩)
            · exact IH5 ch hch

/-- Invariant of the class-rendering loop. -/
theorem tc_classes_inv : ∀ (cs : List ClassNode) (iface qt : Str) (pqd : Nat)
    (pcls : Str) (st : CState) (out : List Str) (st' : CState),
    tc_classes cs iface qt pqd pcls st = .ok (out, st') →
    st'.length = st.length + countCs cs ∧
    (out.filter isQdiscCmd).length = countCs cs ∧
    HandleSeq (out.filter isQdiscCmd) st.length ∧
    (out.filter isClassCmd).length = ncCs qt cs ∧
    (∀ ch ∈ out, ChunkShape ch)
  | [], iface, qt, pqd, pcls, st, out, st', h => by
      simp only [tc_classes, Except.ok.injEq, Prod.mk.injEq] at h
      obtain ⟨hout, hst⟩ := h
      subst hout hst
      exact ⟨by simp [countCs], by simp [countCs], handleSeq_nil _,
        by simp [ncCs], by simp⟩
  | c :: rest, iface, qt, pqd, pcls, st, out, st', h => by
      simp only [tc_classes] at h
      split at h
      · exact Except.noConfusion h
      next out1 st1 hc1 =>
        split at h
        · exact Except.noConfusion h
        next out2 st2 hc2 =>
          simp only [Except.ok.injEq, Prod.mk.injEq] at h
          obtain ⟨hout, hst⟩ := h
          subst hout hst
          obtain ⟨A1, A2, A3, A4, A5⟩ := tc_class_inv c iface qt pqd pcls st
            out1 st1 hc1
          obtain ⟨B1, B2, B3, B4, B5⟩ := tc_classes_inv rest iface qt pqd pcls
            st1 out2 st2 hc2
          refine ⟨?_, ?_, ?_, ?_, ?_⟩
          · rw [B1, A1]; simp only [countCs]; omega
          · rw [List.filter_append, List.length_append, A2, B2]
            simp only [countCs]
          · rw [List.filter_append]
            apply handleSeq_append A3
            rw [A2]
            rw [A1] at B3
            exact B3
          · rw [List.filter_append, List.length_append, A4, B4]
            simp only [ncCs]
          · intro ch hch
            rcases List.mem_append.1 hch with hch | hch
            · exact A5 ch hch
            · exact B5 ch hch

/-- Invariant of `_tc_class`. -/
theorem tc_class_inv : ∀ (c : ClassNode) (iface qt : Str) (pqd : Nat)
    (pcls : Str) (st : CState) (out : List Str) (st' : CState),
    tc_class c iface qt pqd pcls st = .ok (out, st') →
    st'.length = st.length + countC c ∧
    (out.filter isQdiscCmd).length = countC c ∧
    HandleSeq (out.filter isQdiscCmd) st.length ∧
    (out.filter isClassCmd).length = ncC qt c ∧
    (∀ ch ∈ out, ChunkShape ch)
  | .mk idOv opts cmt filters nested subcls, iface, qt, pqd, pcls, st, out, st', h => by
      cases nested with
      | some nq =>
        simp only [tc_class, get_class_id] at h
        split at h
        · exact Except.noConfusion h
        next outN st2 hnq =>
          split at h
          · exact Except.noConfusion h
          next outS st3 hcs =>
            simp only [Except.ok.injEq, Prod.mk.injEq] at h
            obtain ⟨hout, hst⟩ := h
            subst hout hst
            obtain ⟨N1, N2, N3, N4, N5⟩ := tc_qdisc_inv nq _ _ _ _ _ _ hnq
            obtain ⟨S1, S2, S3, S4, S5⟩ := tc_classes_inv subcls _ _ _ _ _ _ _ hcs
            rw [List.length_set] at N1 N3
            refine ⟨?_, ?_, ?_, ?_, ?_⟩
            · rw [S1, N1]; simp only [countC]; omega
            · rw [List.filter_append, List.filter_append, List.filter_append,
                List.filter_append, filter_qdisc_tc_comment,
                filter_map_eq_nil isQdiscCmd _ filters
                  (fun m _ => isQdiscCmd_filterLine _ _ _ _ _),
                filter_ite_single_q _ _ (isQdiscCmd_classLine _ _ _ _ _ _)]
              simp only [List.nil_append, List.length_append, N2, S2, countC]
            · rw [List.filter_append, List.filter_append, List.filter_append,
                List.filter_append, filter_qdisc_tc_comment,
                filter_map_eq_nil isQdiscCmd _ filters
                  (fun m _ => isQdiscCmd_filterLine _ _ _ _ _),
                filter_ite_single_q _ _ (isQdiscCmd_classLine _ _ _ _ _ _)]
              simp only [List.nil_append]
              apply handleSeq_append N3
              have hbase : st2.length = st.length + (outN.filter isQdiscCmd).length := by
                rw [N2, N1]
              rw [← hbase]
              exact S3
            · rw [List.filter_append, List.filter_append, List.filter_append,
                List.filter_append, filter_class_tc_comment,
                filter_map_eq_nil isClassCmd _ filters
                  (fun m _ => isClassCmd_filterLine _ _ _ _ _),
                filter_ite_single_c _ _ (isClassCmd_classLine _ _ _ _ _ _)]
              simp only [List.nil_append, List.length_append, N4, S4,
                length_ite_single, ncC]
              omega
            · intro ch hch
              simp only [List.mem_append] at hch
              rcases hch with (((hch | hch) | hch) | hch) | hch
              · exact tc_comment_shape cmt ch hch
              · obtain ⟨m, hm, rfl⟩ := List.mem_map.1 hch
                exact Or.inr (Or.inr (Or.inl ⟨_, _, _, _, _, rfl⟩))
              · by_cases hqt : qt = "prio".data
                · rw [if_pos hqt] at hch; simp at hch
                · rw [if_neg hqt] at hch
                  rcases List.mem_singleton.1 hch with rfl
                  exact Or.inr (Or.inr (Or.inr ⟨_, _, _, _, _, _, rfl⟩))
              · exact N5 ch hch
              · exact S5 ch hch
      | none =>
        simp only [tc_class, get_class_id] at h
        split at h
        · exact Except.noConfusion h
        next outS st3 hcs =>
          simp only [Except.ok.injEq, Prod.mk.injEq] at h
          obtain ⟨hout, hst⟩ := h
          subst hout hst
          obtain ⟨S1, S2, S3, S4, S5⟩ := tc_classes_inv subcls _ _ _ _ _ _ _ hcs
          rw [List.length_set] at S1 S3
          refine ⟨?_, ?_, ?_, ?_, ?_⟩
          · rw [S1]; simp only [countC]; omega
          · rw [List.filter_append, List.filter_append, List.filter_append,
              filter_qdisc_tc_comment,
              filter_map_eq_nil isQdiscCmd _ filters
                (fun m _ => isQdiscCmd_filterLine _ _ _ _ _),
              filter_ite_single_q _ _ (isQdiscCmd_classLine _ _ _ _ _ _)]
            simp only [List.nil_append, S2, countC]
            omega
          · rw [List.filter_append, List.filter_append, List.filter_append,
              filter_qdisc_tc_comment,
              filter_map_eq_nil isQdiscCmd _ filters
                (fun m _ => isQdiscCmd_filterLine _ _ _ _ _),
              filter_ite_single_q _ _ (isQdiscCmd_classLine _ _ _ _ _ _)]
            simp only [List.nil_append]
            exact S3
          · rw [List.filter_append, List.filter_append, List.filter_append,
              filter_class_tc_comment,
              filter_map_eq_nil isClassCmd _ filters
                (fun m _ => isClassCmd_filterLine _ _ _ _ _),
              filter_ite_single_c _ _ (isClassCmd_classLine _ _ _ _ _ _)]
            simp only [List.nil_append, List.length_append, S4,
              length_ite_single, ncC]
            omega
          · intro ch hch
            simp only [List.mem_append] at hch
            rcases hch with ((hch | hch) | hch) | hch
            · exact tc_comment_shape cmt ch hch
            · obtain ⟨m, hm, rfl⟩ := List.mem_map.1 hch
              exact Or.inr (Or.inr (Or.inl ⟨_, _, _, _, _, rfl⟩))
            · by_cases hqt : qt = "prio".data
              · rw [if_pos hqt] at hch; simp at hch
              · rw [if_neg hqt] at hch
                rcases List.mem_singleton.1 hch with rfl
                exact Or.inr (Or.inr (Or.inr ⟨_, _, _, _, _, _, rfl⟩))
            · exact S5 ch hch

end

/-! ### Assembler-level lemmas -/

lemma bool_ne_true {b : Bool} (h : b = false) : ¬(b = true) := by simp [h]

lemma compile_tc_ok (iface : Str) (q : QdiscNode) (out : List Str)
    (h : compile_tc iface q = .ok out) :
    ∃ body st', tc_qdisc q iface none [] counterInit = .ok (body, st') ∧
      out = preamble iface ++ tc_comment q.comment ++ resetLine iface :: body := by
  unfold compile_tc at h
  split at h
  · exact Except.noConfusion h
  next body st1 hq =>
    simp only [Except.ok.injEq] at h
    exact ⟨body, st1, hq, h.symm⟩

lemma isQdiscCmd_shebang : isQdiscCmd "#!/bin/bash\n".data = false := rfl

lemma isQdiscCmd_sete : isQdiscCmd "set -e\n\n".data = false := rfl

lemma isQdiscCmd_banner (iface : Str) :
    isQdiscCmd ("## AUTOGENERATED TC FOR ".data ++ iface ++
      " - DO NOT EDIT ##\n".data) = false := rfl

lemma isResetCmd_shebang : isResetCmd "#!/bin/bash\n".data = false := rfl

lemma isResetCmd_sete : isResetCmd "set -e\n\n".data = false := rfl

lemma isResetCmd_banner (iface : Str) :
    isResetCmd ("## AUTOGENERATED TC FOR ".data ++ iface ++
      " - DO NOT EDIT ##\n".data) = false := rfl

lemma filter_qdisc_preamble (iface : Str) :
    (preamble iface).filter isQdiscCmd = [] := by
  unfold preamble
  rw [List.filter_cons, if_neg (bool_ne_true isQdiscCmd_shebang),
    List.filter_cons, if_neg (bool_ne_true isQdiscCmd_sete),
    List.filter_cons, if_neg (bool_ne_true (isQdiscCmd_banner iface))]
  rfl

lemma filter_reset_preamble (iface : Str) :
    (preamble iface).filter isResetCmd = [] := by
  unfold preamble
  rw [List.filter_cons, if_neg (bool_ne_true isResetCmd_shebang),
    List.filter_cons, if_neg (bool_ne_true isResetCmd_sete),
    List.filter_cons, if_neg (bool_ne_true (isResetCmd_banner iface))]
  rfl

lemma filter_reset_tc_comment (cmt : Option Str) :
    (tc_comment cmt).filter isResetCmd = [] := by
  cases cmt <;> simp [tc_comment, isResetCmd_comment]

lemma isQdiscCmd_resetLine (iface : Str) : isQdiscCmd (resetLine iface) = false := rfl

lemma isResetCmd_resetLine (iface : Str) : isResetCmd (resetLine iface) = true := rfl

/-- Claim C1: qdisc handles are allocated in pre-order traversal sequence
starting at 1 and incrementing by exactly 1 per qdisc node: in any
successfully compiled script, there is exactly one qdisc generation command
per qdisc node of the tree, and the `n`-th such command (1-based, in emission
order) is addressed with `handle n:`. -/
theorem claim_C1 (q : QdiscNode) (iface : Str) (out : List Str)
    (h : compile_tc iface q = .ok out) :
    (out.filter isQdiscCmd).length = countQ q ∧
    HandleSeq (out.filter isQdiscCmd) 1 := by
  obtain ⟨body, st1, hq, rfl⟩ := compile_tc_ok iface q _ h
  obtain ⟨I1, I2, I3, I4, I5⟩ := tc_qdisc_inv q iface none [] counterInit
    body st1 hq
  have hfilter : ((preamble iface ++ tc_comment q.comment ++
      resetLine iface :: body).filter isQdiscCmd) = body.filter isQdiscCmd := by
    rw [List.filter_append, List.filter_append, filter_qdisc_preamble,
      filter_qdisc_tc_comment, List.filter_cons,
      if_neg (bool_ne_true (isQdiscCmd_resetLine iface)), List.nil_append,
      List.nil_append]
  rw [hfilter]
  exact ⟨I2, I3⟩

/-- Concrete input for the C1 witness: a `prio` qdisc with two classes each
carrying a nested qdisc. -/
def c1tree : QdiscNode :=
  .mk (some "prio".data) [] none
    [.mk none [] none [] (some (.mk (some "sfq".data) [] none [])) [],
     .mk none [] none [] (some (.mk (some "tbf".data) "rate 20kbit".data none [])) []]

/-- The script compiled from `c1tree`. -/
def c1out : List Str :=
  ["#!/bin/bash\n".data, "set -e\n\n".data,
   "## AUTOGENERATED TC FOR eth0 - DO NOT EDIT ##\n".data,
   "tc qdisc del dev eth0 root || true\n".data,
   "tc qdisc add dev eth0 root handle 1: prio\n".data,
   "tc qdisc add dev eth0 parent 1:1 handle 2: sfq\n".data,
   "tc qdisc add dev eth0 parent 1:2 handle 3: tbf rate 20kbit\n".data]

theorem claim_C1_witness :
    compile_tc "eth0".data c1tree = .ok c1out ∧
    ((c1out.filter isQdiscCmd).length = countQ c1tree ∧
      HandleSeq (c1out.filter isQdiscCmd) 1) :=
  ⟨rfl, claim_C1 c1tree "eth0".data c1out rfl⟩

/-! ### Claim C2: class-id allocation -/

/-- One interaction with the `Counters` object: a further qdisc registration
(`get_qdisc_id start`) or a class-id allocation under some handle
(`get_class_id h`).  A compilation performs an arbitrary interleaving of
these operations. -/
inductive AllocOp : Type where
  | qdisc (start : Nat) : AllocOp
  | cls (h : Nat) : AllocOp

/-- The ids handed out for handle `g` by a sequence of interleaved counter
operations, in order. -/
def clsIdsUnder (g : Nat) : List AllocOp → CState → List Nat
  | [], _ => []
  | .qdisc s :: rest, st => clsIdsUnder g rest (get_qdisc_id s st).2
  | .cls k :: rest, st =>
      if k = g then
        (get_class_id k st).1 :: clsIdsUnder g rest (get_class_id k st).2
      else clsIdsUnder g rest (get_class_id k st).2

/-- How many of the operations allocate a class id under handle `g`. -/
def numClsOps (g : Nat) : List AllocOp → Nat
  | [] => 0
  | .qdisc _ :: rest => numClsOps g rest
  | .cls k :: rest => (if k = g then 1 else 0) + numClsOps g rest

mutual

/-- The number of class nodes of a class subtree that are allocated under
the owning qdisc handle: the node itself plus its sub-classes recursively
(the classes of a nested qdisc are allocated under that qdisc's own fresh
handle, not this one). -/
def numC : ClassNode → Nat
  | .mk _ _ _ _ _ sub => 1 + numCs sub

/-- Total number of class nodes of a class list allocated under the owning
handle. -/
def numCs : List ClassNode → Nat
  | [] => 0
  | c :: rest => numC c + numCs rest

end

lemma getD_append_of_lt (st : CState) (x i : Nat) (hi : i < st.length) :
    (st ++ [x]).getD i 0 = st.getD i 0 := by
  rw [List.getD_eq_getElem?_getD, List.getD_eq_getElem?_getD,
    List.getElem?_append_left hi]

lemma getD_set_of_ne (st : CState) (p v i : Nat) (hip : i ≠ p) :
    (st.set p v).getD i 0 = st.getD i 0 := by
  rw [List.getD_eq_getElem?_getD, List.getElem?_set_ne (by omega),
    ← List.getD_eq_getElem?_getD]

lemma getD_set_at (st : CState) (p v : Nat) (hp : p < st.length) :
    (st.set p v).getD p 0 = v := by
  rw [List.getD_eq_getElem?_getD, List.getElem?_set_self hp]
  rfl

lemma clsIdsUnder_qdisc (g s : Nat) (rest : List AllocOp) (st : CState) :
    clsIdsUnder g (.qdisc s :: rest) st = clsIdsUnder g rest (st ++ [s - 1]) :=
  rfl

lemma clsIdsUnder_cls_eq (g : Nat) (rest : List AllocOp) (st : CState) :
    clsIdsUnder g (.cls g :: rest) st =
      (st.getD g 0 + 1) :: clsIdsUnder g rest (st.set g (st.getD g 0 + 1)) := by
  simp [clsIdsUnder, get_class_id]

lemma clsIdsUnder_cls_ne (g k : Nat) (hk : k ≠ g) (rest : List AllocOp)
    (st : CState) :
    clsIdsUnder g (.cls k :: rest) st =
      clsIdsUnder g rest (st.set k (st.getD k 0 + 1)) := by
  simp [clsIdsUnder, get_class_id, hk]

lemma numClsOps_qdisc (g s : Nat) (rest : List AllocOp) :
    numClsOps g (.qdisc s :: rest) = numClsOps g rest :=
  rfl

lemma numClsOps_cls_eq (g : Nat) (rest : List AllocOp) :
    numClsOps g (.cls g :: rest) = numClsOps g rest + 1 := by
  simp [numClsOps, Nat.add_comm]

lemma numClsOps_cls_ne (g k : Nat) (hk : k ≠ g) (rest : List AllocOp) :
    numClsOps g (.cls k :: rest) = numClsOps g rest := by
  simp [numClsOps, hk]

/-- Under any interleaving of counter operations, the ids handed out for a
registered handle form the consecutive run starting one above its current
counter value: registrations of further qdiscs and allocations under other
handles never disturb it. -/
lemma clsIdsUnder_range : ∀ (ops : List AllocOp) (st : CState) (g : Nat),
    g < st.length →
    clsIdsUnder g ops st = List.range' (st.getD g 0 + 1) (numClsOps g ops)
  | [], st, g, hg => rfl
  | .qdisc s :: rest, st, g, hg => by
      have hlen : g < (st ++ [s - 1]).length := by
        rw [List.length_append]; omega
      rw [clsIdsUnder_qdisc, numClsOps_qdisc,
        clsIdsUnder_range rest (st ++ [s - 1]) g hlen,
        getD_append_of_lt st (s - 1) g hg]
  | .cls k :: rest, st, g, hg => by
      by_cases hk : k = g
      · subst hk
        have hlen : k < (st.set k (st.getD k 0 + 1)).length := by
          rwa [List.length_set]
        rw [clsIdsUnder_cls_eq, numClsOps_cls_eq,
          clsIdsUnder_range rest (st.set k (st.getD k 0 + 1)) k hlen,
          getD_set_at st k (st.getD k 0 + 1) hg, List.range'_succ]
      · have hlen : g < (st.set k (st.getD k 0 + 1)).length := by
          rwa [List.length_set]
        rw [clsIdsUnder_cls_ne g k hk rest st, numClsOps_cls_ne g k hk rest,
          clsIdsUnder_range rest (st.set k (st.getD k 0 + 1)) g hlen,
          getD_set_of_ne st k (st.getD k 0 + 1) g (fun he => hk he.symm)]

mutual

/-- Compiling a whole qdisc subtree leaves every pre-existing counter
untouched: all the class allocations it performs target handles registered
inside the subtree itself. -/
theorem tc_qdisc_pres : ∀ (q : QdiscNode) (iface : Str) (pq : Option Nat)
    (pc : Str) (st : CState) (out : List Str) (st' : CState),
    tc_qdisc q iface pq pc st = .ok (out, st') →
    ∀ i, i < st.length → st'.getD i 0 = st.getD i 0
  | .mk none opts cmt classes, iface, pq, pc, st, out, st', h => by
      simp [tc_qdisc, qdisc_info] at h
  | .mk (some tv) opts cmt classes, iface, pq, pc, st, out, st', h => by
      simp only [tc_qdisc, qdisc_info, get_qdisc_id, Option.getD_some,
        List.length_append, List.length_cons, List.length_nil, Nat.zero_add,
        Nat.add_zero, Nat.add_sub_cancel] at h
      split at h
      · exact Except.noConfusion h
      next out2 st2 hcs =>
        simp only [Except.ok.injEq, Prod.mk.injEq] at h
        obtain ⟨hout, hst⟩ := h
        subst hst
        intro i hi
        have hA : i < (st ++ [(if tv = "prio".data then 1 else 100) - 1]).length := by
          rw [List.length_append]; omega
        rw [tc_classes_pres classes iface tv st.length [] _ out2 st2 hcs i hA
            (by omega),
          getD_append_of_lt st _ i hi]

/-- The class loop can modify only the owning handle among the pre-existing
counters. -/
theorem tc_classes_pres : ∀ (cs : List ClassNode) (iface qt : Str) (pqd : Nat)
    (pcls : Str) (st : CState) (out : List Str) (st' : CState),
    tc_classes cs iface qt pqd pcls st = .ok (out, st') →
    ∀ i, i < st.length → i ≠ pqd → st'.getD i 0 = st.getD i 0
  | [], iface, qt, pqd, pcls, st, out, st', h => by
      simp only [tc_classes, Except.ok.injEq, Prod.mk.injEq] at h
      obtain ⟨hout, hst⟩ := h
      subst hst
      intro i hi hip
      rfl
  | c :: rest, iface, qt, pqd, pcls, st, out, st', h => by
      simp only [tc_classes] at h
      split at h
      · exact Except.noConfusion h
      next out1 st1 hc1 =>
        split at h
        · exact Except.noConfusion h
        next out2 st2 hc2 =>
          simp only [Except.ok.injEq, Prod.mk.injEq] at h
          obtain ⟨hout, hst⟩ := h
          subst hst
          intro i hi hip
          have hl1 : st1.length = st.length + countC c :=
            (tc_class_inv c iface qt pqd pcls st out1 st1 hc1).1
          rw [tc_classes_pres rest iface qt pqd pcls st1 out2 st2 hc2 i
              (by omega) hip,
            tc_class_pres c iface qt pqd pcls st out1 st1 hc1 i hi hip]

/-- Rendering one class can modify only the owning handle among the
pre-existing counters. -/
theorem tc_class_pres : ∀ (c : ClassNode) (iface qt : Str) (pqd : Nat)
    (pcls : Str) (st : CState) (out : List Str) (st' : CState),
    tc_class c iface qt pqd pcls st = .ok (out, st') →
    ∀ i, i < st.length → i ≠ pqd → st'.getD i 0 = st.getD i 0
  | .mk idOv opts cmt filters nested subcls, iface, qt, pqd, pcls, st, out, st', h => by
      cases nested with
      | some nq =>
        simp only [tc_class, get_class_id] at h
        split at h
        · exact Except.noConfusion h
        next outN st2 hnq =>
          split at h
          · exact Except.noConfusion h
          next outS st3 hcs =>
            simp only [Except.ok.injEq, Prod.mk.injEq] at h
            obtain ⟨hout, hst⟩ := h
            subst hst
            intro i hi hip
            have hset : i < (st.set pqd (st.getD pqd 0 + 1)).length := by
              rw [List.length_set]; omega
            have hl2 : st2.length =
                (st.set pqd (st.getD pqd 0 + 1)).length + countQ nq :=
              (tc_qdisc_inv nq iface (some pqd) _ _ outN st2 hnq).1
            rw [List.length_set] at hl2
            rw [tc_classes_pres subcls iface qt pqd _ st2 outS st3 hcs i
                (by omega) hip,
              tc_qdisc_pres nq iface (some pqd) _ _ outN st2 hnq i hset,
              getD_set_of_ne st pqd (st.getD pqd 0 + 1) i hip]
      | none =>
        simp only [tc_class, get_class_id] at h
        split at h
        · exact Except.noConfusion h
        next outS st3 hcs =>
          simp only [Except.ok.injEq, Prod.mk.injEq] at h
          obtain ⟨hout, hst⟩ := h
          subst hst
          intro i hi hip
          have hset : i < (st.set pqd (st.getD pqd 0 + 1)).length := by
            rw [List.length_set]; omega
          rw [tc_classes_pres subcls iface qt pqd _ _ outS st3 hcs i hset hip,
            getD_set_of_ne st pqd (st.getD pqd 0 + 1) i hip]

end

mutual

/-- Rendering a class list advances the owning handle's counter by exactly
one per class node allocated under that handle: one for each class of the
list, in order, plus one for each of its sub-classes recursively;
interleaved nested-qdisc compilations contribute nothing. -/
theorem tc_classes_cnt : ∀ (cs : List ClassNode) (iface qt : Str) (pqd : Nat)
    (pcls : Str) (st : CState) (out : List Str) (st' : CState),
    tc_classes cs iface qt pqd pcls st = .ok (out, st') → pqd < st.length →
    st'.getD pqd 0 = st.getD pqd 0 + numCs cs
  | [], iface, qt, pqd, pcls, st, out, st', h, hp => by
      simp only [tc_classes, Except.ok.injEq, Prod.mk.injEq] at h
      obtain ⟨hout, hst⟩ := h
      subst hst
      simp [numCs]
  | c :: rest, iface, qt, pqd, pcls, st, out, st', h, hp => by
      simp only [tc_classes] at h
      split at h
      · exact Except.noConfusion h
      next out1 st1 hc1 =>
        split at h
        · exact Except.noConfusion h
        next out2 st2 hc2 =>
          simp only [Except.ok.injEq, Prod.mk.injEq] at h
          obtain ⟨hout, hst⟩ := h
          subst hst
          have hl1 : st1.length = st.length + countC c :=
            (tc_class_inv c iface qt pqd pcls st out1 st1 hc1).1
          have e1 : st1.getD pqd 0 = st.getD pqd 0 + numC c :=
            tc_class_cnt c iface qt pqd pcls st out1 st1 hc1 hp
          have e2 : st2.getD pqd 0 = st1.getD pqd 0 + numCs rest :=
            tc_classes_cnt rest iface qt pqd pcls st1 out2 st2 hc2 (by omega)
          rw [e2, e1]
          simp only [numCs]
          omega

/-- Rendering one class advances the owning handle's counter by exactly
`numC`: one for its own allocation plus its sub-classes, with the nested
qdisc compilation in between leaving the counter untouched. -/
theorem tc_class_cnt : ∀ (c : ClassNode) (iface qt : Str) (pqd : Nat)
    (pcls : Str) (st : CState) (out : List Str) (st' : CState),
    tc_class c iface qt pqd pcls st = .ok (out, st') → pqd < st.length →
    st'.getD pqd 0 = st.getD pqd 0 + numC c
  | .mk idOv opts cmt filters nested subcls, iface, qt, pqd, pcls, st, out, st', h, hp => by
      cases nested with
      | some nq =>
        simp only [tc_class, get_class_id] at h
        split at h
        · exact Except.noConfusion h
        next outN st2 hnq =>
          split at h
          · exact Except.noConfusion h
          next outS st3 hcs =>
            simp only [Except.ok.injEq, Prod.mk.injEq] at h
            obtain ⟨hout, hst⟩ := h
            subst hst
            have hset : pqd < (st.set pqd (st.getD pqd 0 + 1)).length := by
              rw [List.length_set]; omega
            have hl2 : st2.length =
                (st.set pqd (st.getD pqd 0 + 1)).length + countQ nq :=
              (tc_qdisc_inv nq iface (some pqd) _ _ outN st2 hnq).1
            rw [List.length_set] at hl2
            have eN : st2.getD pqd 0 =
                (st.set pqd (st.getD pqd 0 + 1)).getD pqd 0 :=
              tc_qdisc_pres nq iface (some pqd) _ _ outN st2 hnq pqd hset
            have eS : st3.getD pqd 0 = st2.getD pqd 0 + numCs subcls :=
              tc_classes_cnt subcls iface qt pqd _ st2 outS st3 hcs (by omega)
            rw [eS, eN, getD_set_at st pqd (st.getD pqd 0 + 1) hp]
            simp only [numC]
            omega
      | none =>
        simp only [tc_class, get_class_id] at h
        split at h
        · exact Except.noConfusion h
        next outS st3 hcs =>
          simp only [Except.ok.injEq, Prod.mk.injEq] at h
          obtain ⟨hout, hst⟩ := h
          subst hst
          have hset : pqd < (st.set pqd (st.getD pqd 0 + 1)).length := by
            rw [List.length_set]; omega
          have eS : st3.getD pqd 0 =
              (st.set pqd (st.getD pqd 0 + 1)).getD pqd 0 + numCs subcls :=
            tc_classes_cnt subcls iface qt pqd _ _ outS st3 hcs hset
          rw [eS, getD_set_at st pqd (st.getD pqd 0 + 1) hp]
          simp only [numC]
          omega

end

/-- `_qdisc_info` registers the qdisc under a fresh handle (the next counter
slot) and seeds that slot one below the class-id base: 1 for `prio`, 100
for every other kind. -/
lemma qdisc_info_seed (q : QdiscNode) (st : CState) (info : Str) (qid : Nat)
    (st' : CState) (h : qdisc_info q st = .ok (info, qid, st')) :
    qid = st.length ∧ st'.length = st.length + 1 ∧
    st'.getD qid 0 + 1 = (if q.qtype = some "prio".data then 1 else 100) := by
  obtain ⟨t, opts, cmt, cls⟩ := q
  cases t with
  | none => simp [qdisc_info] at h
  | some tv =>
    simp only [qdisc_info, get_qdisc_id, Except.ok.injEq, Prod.mk.injEq] at h
    obtain ⟨hinfo, hqid, hst⟩ := h
    have hqid2 : qid = st.length := by
      rw [← hqid]; simp
    have hget : st'.getD qid 0 = (if tv = "prio".data then 1 else 100) - 1 := by
      rw [← hst, hqid2, List.getD_eq_getElem?_getD, List.getElem?_concat_length]
      rfl
    have hqt : (QdiscNode.mk (some tv) opts cmt cls).qtype = some tv := rfl
    refine ⟨hqid2, by rw [← hst]; simp, ?_⟩
    rw [hget, hqt]
    by_cases htv : tv = "prio".data
    · simp only [htv, eq_self_iff_true, if_true, Option.some.injEq]
    · simp only [Option.some.injEq, if_neg htv]

/-- Across one full compilation of a qdisc node, the counter of the handle
it registers ends exactly `numCs` above its seed, one step per class node
allocated under it in traversal order. -/
lemma tc_qdisc_total (q : QdiscNode) (iface : Str) (pq : Option Nat) (pc : Str)
    (st : CState) (out : List Str) (st' : CState)
    (h : tc_qdisc q iface pq pc st = .ok (out, st')) :
    st'.getD st.length 0 + 1 =
      (if q.qtype = some "prio".data then 1 else 100) + numCs q.classes := by
  obtain ⟨t, opts, cmt, cls⟩ := q
  cases t with
  | none => simp [tc_qdisc, qdisc_info] at h
  | some tv =>
    simp only [tc_qdisc, qdisc_info, get_qdisc_id, Option.getD_some,
      List.length_append, List.length_cons, List.length_nil, Nat.zero_add,
      Nat.add_zero, Nat.add_sub_cancel] at h
    split at h
    · exact Except.noConfusion h
    next out2 st2 hcs =>
      simp only [Except.ok.injEq, Prod.mk.injEq] at h
      obtain ⟨hout, hst⟩ := h
      subst hst
      have hlen : st.length <
          (st ++ [(if tv = "prio".data then 1 else 100) - 1]).length := by
        rw [List.length_append]
        simp
      have hcnt := tc_classes_cnt cls iface tv st.length []
        (st ++ [(if tv = "prio".data then 1 else 100) - 1]) out2 st2 hcs hlen
      have hseed : (st ++ [(if tv = "prio".data then 1 else 100) - 1]).getD
          st.length 0 = (if tv = "prio".data then 1 else 100) - 1 := by
        rw [List.getD_eq_getElem?_getD, List.getElem?_concat_length]
        rfl
      rw [hcnt, hseed]
      simp only [QdiscNode.qtype, QdiscNode.classes]
      by_cases htv : tv = "prio".data
      · simp only [htv, eq_self_iff_true, if_true, Option.some.injEq]
        omega
      · simp only [Option.some.injEq, if_neg htv]
        omega

/-- Claim C2: the first class id allocated under a `prio` qdisc's handle is
1, under any other kind's handle 100, and subsequent class ids under the
same handle increase by exactly one per class in traversal order and are
never reused within one compilation.  In full interleaved generality:
(1) under any sequence of counter operations — further qdisc registrations
and class allocations under arbitrary handles, interleaved — the ids handed
out for a handle form the consecutive duplicate-free run starting one above
its current counter; (2) `_qdisc_info` registers a fresh handle seeded one
below the type-dependent base, so the first id allocated under it is the
base itself; (3) compiling a nested qdisc subtree leaves every pre-existing
counter unchanged; (4) the class loop advances the owning handle by exactly
one per class node allocated under it; (5) hence across a whole qdisc
compilation the handle's counter ends exactly at base − 1 plus the number
of class nodes under it. -/
theorem claim_C2 :
    (∀ (ops : List AllocOp) (st : CState) (g : Nat), g < st.length →
      clsIdsUnder g ops st =
        List.range' (st.getD g 0 + 1) (numClsOps g ops) ∧
      (clsIdsUnder g ops st).Nodup) ∧
    (∀ (q : QdiscNode) (st : CState) (info : Str) (qid : Nat) (st' : CState),
      qdisc_info q st = .ok (info, qid, st') →
      qid = st.length ∧ st'.length = st.length + 1 ∧
      st'.getD qid 0 + 1 = (if q.qtype = some "prio".data then 1 else 100)) ∧
    (∀ (q : QdiscNode) (iface : Str) (pq : Option Nat) (pc : Str) (st : CState)
      (out : List Str) (st' : CState),
      tc_qdisc q iface pq pc st = .ok (out, st') →
      ∀ i, i < st.length → st'.getD i 0 = st.getD i 0) ∧
    (∀ (cs : List ClassNode) (iface qt : Str) (pqd : Nat) (pcls : Str)
      (st : CState) (out : List Str) (st' : CState),
      tc_classes cs iface qt pqd pcls st = .ok (out, st') → pqd < st.length →
      st'.getD pqd 0 = st.getD pqd 0 + numCs cs) ∧
    (∀ (q : QdiscNode) (iface : Str) (pq : Option Nat) (pc : Str) (st : CState)
      (out : List Str) (st' : CState),
      tc_qdisc q iface pq pc st = .ok (out, st') →
      st'.getD st.length 0 + 1 =
        (if q.qtype = some "prio".data then 1 else 100) + numCs q.classes) := by
  refine ⟨?_, ?_, ?_, ?_, ?_⟩
  · intro ops st g hg
    refine ⟨clsIdsUnder_range ops st g hg, ?_⟩
    rw [clsIdsUnder_range ops st g hg]
    exact List.nodup_range' _ _
  · exact qdisc_info_seed
  · exact tc_qdisc_pres
  · exact tc_classes_cnt
  · intro q iface pq pc st out st' h
    exact tc_qdisc_total q iface pq pc st out st' h

/-- Concrete input for the C2 witness: a `prio` qdisc registered on a fresh
counter. -/
def c2q : QdiscNode := .mk (some "prio".data) [] none []

/-- Counter state after registering `c2q` on `counterInit`. -/
def c2st : CState := [0, 0]

/-- Info string of `c2q`. -/
def c2info : Str := "handle 1: prio".data

/-- The counter operations a compilation of a `prio` qdisc with three
classes, each nesting an `sfq` qdisc, performs after registering handle 1:
each class allocation under handle 1 is interleaved with the registration
of the nested qdisc. -/
def c2ops : List AllocOp :=
  [.cls 1, .qdisc 100, .cls 1, .qdisc 100, .cls 1, .qdisc 100]

/-- A nested `sfq` qdisc for the C2 witness. -/
def c2q3 : QdiscNode := .mk (some "sfq".data) [] none []

/-- A one-class list for the C2 witness. -/
def c2cs : List ClassNode := [.mk none [] none [] none []]

/-- A `prio` qdisc with two classes for the C2 witness. -/
def c2q5 : QdiscNode :=
  .mk (some "prio".data) [] none
    [.mk none [] none [] none [], .mk none [] none [] none []]

theorem claim_C2_witness :
    ((1 : Nat) < ([0, 0] : CState).length ∧
      (clsIdsUnder 1 c2ops [0, 0] =
          List.range' (([0, 0] : CState).getD 1 0 + 1) (numClsOps 1 c2ops) ∧
        (clsIdsUnder 1 c2ops [0, 0]).Nodup)) ∧
    (qdisc_info c2q counterInit = .ok (c2info, 1, c2st) ∧
      (1 = counterInit.length ∧ c2st.length = counterInit.length + 1 ∧
        c2st.getD 1 0 + 1 =
          (if c2q.qtype = some "prio".data then 1 else 100))) ∧
    (tc_qdisc c2q3 "eth0".data (some 1) "1".data [0, 2] =
        .ok (["tc qdisc add dev eth0 parent 1:1 handle 2: sfq\n".data],
          [0, 2, 99]) ∧
      (∀ i, i < ([0, 2] : CState).length →
        ([0, 2, 99] : CState).getD i 0 = ([0, 2] : CState).getD i 0)) ∧
    (tc_classes c2cs "eth0".data "htb".data 1 [] [0, 99] =
        .ok (["tc class add dev eth0 parent 1: classid 1:100 htb \n".data],
          [0, 100]) ∧
      ((1 : Nat) < ([0, 99] : CState).length ∧
        ([0, 100] : CState).getD 1 0 = ([0, 99] : CState).getD 1 0 + numCs c2cs)) ∧
    (tc_qdisc c2q5 "eth0".data none [] counterInit =
        .ok (["tc qdisc add dev eth0 root handle 1: prio\n".data], [0, 2]) ∧
      ([0, 2] : CState).getD counterInit.length 0 + 1 =
        (if c2q5.qtype = some "prio".data then 1 else 100) + numCs c2q5.classes) :=
  ⟨⟨by decide, claim_C2.1 c2ops [0, 0] 1 (by decide)⟩,
   ⟨rfl, claim_C2.2.1 c2q counterInit c2info 1 c2st rfl⟩,
   ⟨rfl, claim_C2.2.2.1 c2q3 "eth0".data (some 1) "1".data [0, 2]
      ["tc qdisc add dev eth0 parent 1:1 handle 2: sfq\n".data] [0, 2, 99] rfl⟩,
   ⟨rfl, by decide,
    claim_C2.2.2.2.1 c2cs "eth0".data "htb".data 1 [] [0, 99]
      ["tc class add dev eth0 parent 1: classid 1:100 htb \n".data] [0, 100]
      rfl (by decide)⟩,
   ⟨rfl, claim_C2.2.2.2.2 c2q5 "eth0".data none [] counterInit
      ["tc qdisc add dev eth0 root handle 1: prio\n".data] [0, 2] rfl⟩⟩

/-- Claim C5: a qdisc node with no discipline kind makes the whole build fail
with the malformed-specification error, and a build with no root qdisc fails
with the missing-specification error; in both cases the result is an
`Except.error`, which carries no script text. -/
theorem claim_C5 :
    (∀ (iface : Str) (q : QdiscNode), q.qtype = none →
      build_tc_script iface (some q) = .error msgMissingType) ∧
    (∀ iface : Str, build_tc_script iface none = .error msgNoQdisc) := by
  constructor
  · intro iface q hq
    obtain ⟨t, opts, cmt, cls⟩ := q
    simp only [QdiscNode.qtype] at hq
    subst hq
    rfl
  · intro iface; rfl

theorem claim_C5_witness :
    build_tc_script "eth0".data (some (QdiscNode.mk none [] none [])) =
      .error msgMissingType ∧
    build_tc_script "eth0".data none = .error msgNoQdisc :=
  ⟨claim_C5.1 "eth0".data (QdiscNode.mk none [] none []) rfl,
   claim_C5.2 "eth0".data⟩

/-- Claim C6: compilation is a pure function of the interface name and the
tree; `_compile_tc` builds a fresh `Counters` internally, so two compilations
of the same input yield identical results. -/
theorem claim_C6 (iface : Str) (q : QdiscNode) (r1 r2 : Except Str (List Str))
    (h1 : r1 = compile_tc iface q) (h2 : r2 = compile_tc iface q) :
    r1 = r2 := by rw [h1, h2]

/-- Concrete input for the C6 witness. -/
def c6q : QdiscNode := .mk (some "sfq".data) [] none []

/-- The script compiled from `c6q`. -/
def c6out : List Str :=
  ["#!/bin/bash\n".data, "set -e\n\n".data,
   "## AUTOGENERATED TC FOR eth0 - DO NOT EDIT ##\n".data,
   "tc qdisc del dev eth0 root || true\n".data,
   "tc qdisc add dev eth0 root handle 1: sfq\n".data]

theorem claim_C6_witness :
    (Except.ok c6out : Except Str (List Str)) = .ok c6out :=
  claim_C6 "eth0".data c6q (.ok c6out) (.ok c6out) rfl rfl

/-! ### Claim C9: script structure -/

lemma linesOf_append (l r : Str) (hl : ∀ c ∈ l, c ≠ '\n') :
    linesOf (l ++ '\n' :: r) = l :: linesOf r := by
  induction l with
  | nil => simp [linesOf]
  | cons c t ih =>
    have hc : c ≠ '\n' := hl c (by simp)
    have ht : linesOf (t ++ '\n' :: r) = t :: linesOf r :=
      ih (fun x hx => hl x (by simp [hx]))
    simp only [List.cons_append, linesOf, if_neg hc, List.append_eq, ht]

/-- Claim C9: a successful compile yields exactly the preamble (interpreter
directive and fail-fast directive as the first two lines, then the banner),
the root comment if present, then one reset command ending in `|| true`
(tolerating an absent prior discipline), then the compiled stream of the root
qdisc invoked with no parent handle; the reset command is the only chunk of
its kind in the whole script. -/
theorem claim_C9 (iface : Str) (q : QdiscNode) (out : List Str)
    (h : compile_tc iface q = .ok out) :
    ∃ body st',
      tc_qdisc q iface none [] counterInit = .ok (body, st') ∧
      out = preamble iface ++ tc_comment q.comment ++ resetLine iface :: body ∧
      (linesOf (textOf out)).take 2 = ["#!/bin/bash".data, "set -e".data] ∧
      (out.filter isResetCmd).length = 1 ∧
      resetLine iface = "tc qdisc del dev ".data ++ iface ++
        " root || true\n".data := by
  obtain ⟨body, st1, hq, rfl⟩ := compile_tc_ok iface q _ h
  obtain ⟨_, _, _, _, I5⟩ := tc_qdisc_inv q iface none [] counterInit body st1 hq
  refine ⟨body, st1, hq, rfl, ?_, ?_, rfl⟩
  · have h1 : textOf (preamble iface ++ tc_comment q.comment ++
        resetLine iface :: body) =
        "#!/bin/bash".data ++ '\n' ::
          ("set -e".data ++ '\n' :: ('\n' ::
            (textOf (("## AUTOGENERATED TC FOR ".data ++ iface ++
              " - DO NOT EDIT ##\n".data) :: (tc_comment q.comment ++
                resetLine iface :: body))))) := by
      simp [textOf, preamble, List.append_assoc]
    rw [h1, linesOf_append _ _ (by decide)]
    rw [show ("set -e".data ++ '\n' :: ('\n' :: (textOf
        (("## AUTOGENERATED TC FOR ".data ++ iface ++
          " - DO NOT EDIT ##\n".data) :: (tc_comment q.comment ++
            resetLine iface :: body))))) = "set -e".data ++ '\n' :: ('\n' ::
        (textOf (("## AUTOGENERATED TC FOR ".data ++ iface ++
          " - DO NOT EDIT ##\n".data) :: (tc_comment q.comment ++
            resetLine iface :: body)))) from rfl]
    rw [linesOf_append "set -e".data _ (by decide)]
    simp [List.take]
  · rw [List.filter_append, List.filter_append, filter_reset_preamble,
      filter_reset_tc_comment, List.filter_cons,
      if_pos (isResetCmd_resetLine iface), List.nil_append, List.nil_append,
      List.length_cons]
    have hbody : body.filter isResetCmd = [] :=
      List.filter_eq_nil_iff.mpr
        (fun ch hch => by simp [isResetCmd_shape ch (I5 ch hch)])
    rw [hbody]
    rfl

/-- Concrete input for the C9 witness: a root qdisc carrying a comment. -/
def c9q : QdiscNode := .mk (some "sfq".data) [] (some "root qdisc".data) []

/-- The script compiled from `c9q`. -/
def c9out : List Str :=
  ["#!/bin/bash\n".data, "set -e\n\n".data,
   "## AUTOGENERATED TC FOR eth0 - DO NOT EDIT ##\n".data,
   "\n# root qdisc\n".data,
   "tc qdisc del dev eth0 root || true\n".data,
   "\n# root qdisc\n".data,
   "tc qdisc add dev eth0 root handle 1: sfq\n".data]

theorem claim_C9_witness :
    compile_tc "eth0".data c9q = .ok c9out ∧
    (∃ body st',
      tc_qdisc c9q "eth0".data none [] counterInit = .ok (body, st') ∧
      c9out = preamble "eth0".data ++ tc_comment c9q.comment ++
        resetLine "eth0".data :: body ∧
      (linesOf (textOf c9out)).take 2 = ["#!/bin/bash".data, "set -e".data] ∧
      (c9out.filter isResetCmd).length = 1 ∧
      resetLine "eth0".data = "tc qdisc del dev ".data ++ "eth0".data ++
        " root || true\n".data) :=
  ⟨rfl, claim_C9 "eth0".data c9q c9out rfl⟩

/-! ### Per-class emission structure -/

/-- Unfolding of one `_tc_class` call: the output is the comment chunk, the
filter chunks (parent 1 for `htb`, the owning handle otherwise), the class
chunk unless the owner is `prio`, then the nested qdisc output and the
sub-class output, with the class id taken from the explicit `id` override
when present and from the allocator otherwise. -/
lemma tc_class_ok_decomp (idOv : Option Nat) (opts : Str) (cmt : Option Str)
    (filters : List Str) (nested : Option QdiscNode) (subcls : List ClassNode)
    (iface qt : Str) (pqd : Nat) (pcls : Str) (st : CState) (out : List Str)
    (st' : CState)
    (h : tc_class (.mk idOv opts cmt filters nested subcls) iface qt pqd pcls
      st = .ok (out, st')) :
    ∃ outN outS stN,
      (match nested with
       | some nq => tc_qdisc nq iface (some pqd)
           (natStr (idOv.getD (st.getD pqd 0 + 1)))
           (st.set pqd (st.getD pqd 0 + 1)) = .ok (outN, stN)
       | none => outN = [] ∧ stN = st.set pqd (st.getD pqd 0 + 1)) ∧
      tc_classes subcls iface qt pqd (natStr (idOv.getD (st.getD pqd 0 + 1)))
        stN = .ok (outS, st') ∧
      out = tc_comment cmt ++
        filters.map (fun m => filterLine iface
          (if qt = "htb".data then 1 else pqd) m pqd
          (idOv.getD (st.getD pqd 0 + 1))) ++
        (if qt = "prio".data then [] else
          [classLine iface pqd pcls (idOv.getD (st.getD pqd 0 + 1)) qt opts]) ++
        outN ++ outS := by
  cases nested with
  | some nq =>
    simp only [tc_class, get_class_id] at h
    split at h
    · exact Except.noConfusion h
    next outN stN hnq =>
      split at h
      · exact Except.noConfusion h
      next outS st3 hcs =>
        simp only [Except.ok.injEq, Prod.mk.injEq] at h
        obtain ⟨hout, hst⟩ := h
        subst hst
        exact ⟨outN, outS, stN, hnq, hcs, hout.symm⟩
  | none =>
    simp only [tc_class, get_class_id] at h
    split at h
    · exact Except.noConfusion h
    next outS st3 hcs =>
      simp only [Except.ok.injEq, Prod.mk.injEq] at h
      obtain ⟨hout, hst⟩ := h
      subst hst
      refine ⟨[], outS, st.set pqd (st.getD pqd 0 + 1), ⟨rfl, rfl⟩, hcs, ?_⟩
      rw [← hout]
      simp [List.append_assoc]

/-! ### Claim C3: filter parents -/

/-- Claim C3 (amended): for a class rendered under an `htb` qdisc every
filter chunk attaches to parent handle `1`; for any other kind it attaches
to the owning qdisc's handle; the flow id is `<owningHandle>:<id>` where the
id is the allocator-assigned one unless overridden by an explicit `id` field
on the class. -/
theorem claim_C3_amended :
    ∀ (c : ClassNode) (iface qt : Str) (pqd : Nat) (pcls : Str) (st : CState)
      (out : List Str) (st' : CState),
      tc_class c iface qt pqd pcls st = .ok (out, st') →
      (qt = "htb".data → ∀ m ∈ c.filters,
        filterLine iface 1 m pqd (c.idOverride.getD (st.getD pqd 0 + 1)) ∈ out) ∧
      (qt ≠ "htb".data → ∀ m ∈ c.filters,
        filterLine iface pqd m pqd
          (c.idOverride.getD (st.getD pqd 0 + 1)) ∈ out) := by
  intro c iface qt pqd pcls st out st' h
  obtain ⟨idOv, opts, cmt, filters, nested, subcls⟩ := c
  obtain ⟨outN, outS, stN, _, _, hout⟩ := tc_class_ok_decomp idOv opts cmt
    filters nested subcls iface qt pqd pcls st out st' h
  subst hout
  constructor
  · intro hqt m hm
    subst hqt
    simp only [ClassNode.filters] at hm
    simp only [List.mem_append]
    left; left; left; right
    exact List.mem_map.2 ⟨m, hm, by simp [ClassNode.idOverride]⟩
  · intro hqt m hm
    simp only [ClassNode.filters] at hm
    simp only [List.mem_append]
    left; left; left; right
    exact List.mem_map.2 ⟨m, hm, by simp [hqt, ClassNode.idOverride]⟩

/-- Concrete input refuting C3 as stated: an `htb` class with an explicit id
override `5` and one filter. -/
def c3tree : QdiscNode :=
  .mk (some "htb".data) [] none [.mk (some 5) "o3".data none ["m3".data] none []]

/-- C3 as stated is false on the code: with an explicit `id: 5` on the class,
the only emitted filter command routes to flow id `1:5`, not to the
allocator-assigned id `1:100`. -/
theorem claim_C3_counterexample :
    (compile_tc "eth0".data c3tree).toOption.map (List.filter isFilterCmd) =
      some ["tc filter add dev eth0 parent 1: u32 m3 flowid 1:5\n".data] ∧
    ("tc filter add dev eth0 parent 1: u32 m3 flowid 1:5\n".data : Str) ≠
      "tc filter add dev eth0 parent 1: u32 m3 flowid 1:100\n".data :=
  ⟨rfl, by decide⟩

/-- Concrete input for the C3 witness: an `htb` class with no override. -/
def c3wtree : ClassNode := .mk none "o3w".data none ["m3w".data] none []

theorem claim_C3_witness :
    tc_class c3wtree "eth0".data "htb".data 1 [] [0, 99] =
      .ok (["tc filter add dev eth0 parent 1: u32 m3w flowid 1:100\n".data,
            "tc class add dev eth0 parent 1: classid 1:100 htb o3w\n".data],
           [0, 100]) ∧
    ("htb".data = "htb".data →
      ∀ m ∈ c3wtree.filters, filterLine "eth0".data 1 m 1
        (c3wtree.idOverride.getD (List.getD [0, 99] 1 0 + 1)) ∈
        ["tc filter add dev eth0 parent 1: u32 m3w flowid 1:100\n".data,
         "tc class add dev eth0 parent 1: classid 1:100 htb o3w\n".data]) ∧
    ("htb".data ≠ "htb".data →
      ∀ m ∈ c3wtree.filters, filterLine "eth0".data 1 m 1
        (c3wtree.idOverride.getD (List.getD [0, 99] 1 0 + 1)) ∈
        ["tc filter add dev eth0 parent 1: u32 m3w flowid 1:100\n".data,
         "tc class add dev eth0 parent 1: classid 1:100 htb o3w\n".data]) :=
  ⟨rfl,
   (claim_C3_amended c3wtree "eth0".data "htb".data 1 [] [0, 99] _ _ rfl).1,
   fun hne => absurd rfl hne⟩

/-! ### Claim C4: class-creation commands -/

lemma isClassCmd_shebang : isClassCmd "#!/bin/bash\n".data = false := rfl

lemma isClassCmd_sete : isClassCmd "set -e\n\n".data = false := rfl

lemma isClassCmd_banner (iface : Str) :
    isClassCmd ("## AUTOGENERATED TC FOR ".data ++ iface ++
      " - DO NOT EDIT ##\n".data) = false := rfl

lemma isClassCmd_resetLine (iface : Str) :
    isClassCmd (resetLine iface) = false := rfl

lemma filter_class_preamble (iface : Str) :
    (preamble iface).filter isClassCmd = [] := by
  unfold preamble
  rw [List.filter_cons, if_neg (bool_ne_true isClassCmd_shebang),
    List.filter_cons, if_neg (bool_ne_true isClassCmd_sete),
    List.filter_cons, if_neg (bool_ne_true (isClassCmd_banner iface))]
  rfl

/-- Claim C4 (amended): (i) across a whole compiled script there is exactly
one class-creation command per class owned by a non-`prio` qdisc and none
for classes owned by a `prio` qdisc; (ii) a class rendered under a non-`prio`
qdisc emits its class chunk, parented at `<parentHandle>:<parentClassId>`
with classid `<parentHandle>:<id>` where the id is allocator-assigned unless
overridden by an explicit `id` field; (iii) a class rendered under a `prio`
qdisc emits no class chunk of its own, but its filter chunks, its nested
qdisc's output and its sub-classes' output are still emitted. -/
theorem claim_C4_amended :
    (∀ (iface : Str) (q : QdiscNode) (out : List Str),
      compile_tc iface q = .ok out →
      (out.filter isClassCmd).length = ncQ q) ∧
    (∀ (c : ClassNode) (iface qt : Str) (pqd : Nat) (pcls : Str) (st : CState)
      (out : List Str) (st' : CState),
      tc_class c iface qt pqd pcls st = .ok (out, st') → qt ≠ "prio".data →
      classLine iface pqd pcls (c.idOverride.getD (st.getD pqd 0 + 1)) qt
        c.options ∈ out) ∧
    (∀ (c : ClassNode) (iface : Str) (pqd : Nat) (pcls : Str) (st : CState)
      (out : List Str) (st' : CState),
      tc_class c iface "prio".data pqd pcls st = .ok (out, st') →
      ∃ outN outS stN,
        (match c.qdisc with
         | some nq => tc_qdisc nq iface (some pqd)
             (natStr (c.idOverride.getD (st.getD pqd 0 + 1)))
             (st.set pqd (st.getD pqd 0 + 1)) = .ok (outN, stN)
         | none => outN = [] ∧ stN = st.set pqd (st.getD pqd 0 + 1)) ∧
        tc_classes c.classes iface "prio".data pqd
          (natStr (c.idOverride.getD (st.getD pqd 0 + 1))) stN =
            .ok (outS, st') ∧
        out = tc_comment c.comment ++
          c.filters.map (fun m => filterLine iface pqd m pqd
            (c.idOverride.getD (st.getD pqd 0 + 1))) ++ outN ++ outS) := by
  refine ⟨?_, ?_, ?_⟩
  · intro iface q out h
    obtain ⟨body, st1, hq, rfl⟩ := compile_tc_ok iface q _ h
    obtain ⟨_, _, _, I4, _⟩ := tc_qdisc_inv q iface none [] counterInit
      body st1 hq
    rw [List.filter_append, List.filter_append, filter_class_preamble,
      filter_class_tc_comment, List.filter_cons,
      if_neg (bool_ne_true (isClassCmd_resetLine iface)), List.nil_append,
      List.nil_append, I4]
  · intro c iface qt pqd pcls st out st' h hqt
    obtain ⟨idOv, opts, cmt, filters, nested, subcls⟩ := c
    obtain ⟨outN, outS, stN, _, _, hout⟩ := tc_class_ok_decomp idOv opts cmt
      filters nested subcls iface qt pqd pcls st out st' h
    subst hout
    simp only [List.mem_append]
    left; left; right
    rw [if_neg hqt]
    simp [ClassNode.idOverride, ClassNode.options]
  · intro c iface pqd pcls st out st' h
    obtain ⟨idOv, opts, cmt, filters, nested, subcls⟩ := c
    obtain ⟨outN, outS, stN, h1, h2, hout⟩ := tc_class_ok_decomp idOv opts cmt
      filters nested subcls iface "prio".data pqd pcls st out st' h
    refine ⟨outN, outS, stN, h1, h2, ?_⟩
    rw [hout]
    have hpf : (if ("prio".data : Str) = "prio".data then ([] : List Str) else
        [classLine iface pqd pcls (idOv.getD (st.getD pqd 0 + 1))
          "prio".data opts]) = [] := if_pos rfl
    have hhtb : (if ("prio".data : Str) = "htb".data then 1 else pqd) = pqd :=
      if_neg (by decide)
    rw [hpf, hhtb]
    simp [ClassNode.comment, ClassNode.filters, ClassNode.idOverride,
      List.append_assoc]

/-- Concrete input refuting C4 as stated: an `htb` class with explicit
id override `9`. -/
def c4tree : QdiscNode :=
  .mk (some "htb".data) [] none [.mk (some 9) "o4".data none [] none []]

/-- C4 as stated is false on the code: with an explicit `id: 9` the single
class-creation command uses classid `1:9`, not the allocator-assigned
`1:100`. -/
theorem claim_C4_counterexample :
    (compile_tc "eth0".data c4tree).toOption.map (List.filter isClassCmd) =
      some ["tc class add dev eth0 parent 1: classid 1:9 htb o4\n".data] ∧
    ("tc class add dev eth0 parent 1: classid 1:9 htb o4\n".data : Str) ≠
      "tc class add dev eth0 parent 1: classid 1:100 htb o4\n".data :=
  ⟨rfl, by decide⟩

/-- Concrete input for the C4 witness: an `htb` qdisc owning one class with
a nested `prio` qdisc which owns one (implicit) class. -/
def c4w : QdiscNode :=
  .mk (some "htb".data) [] none
    [.mk none "o4w".data none []
      (some (.mk (some "prio".data) [] none [.mk none [] none [] none []])) []]

/-- The script compiled from `c4w`. -/
def c4wout : List Str :=
  ["#!/bin/bash\n".data, "set -e\n\n".data,
   "## AUTOGENERATED TC FOR eth0 - DO NOT EDIT ##\n".data,
   "tc qdisc del dev eth0 root || true\n".data,
   "tc qdisc add dev eth0 root handle 1: htb\n".data,
   "tc class add dev eth0 parent 1: classid 1:100 htb o4w\n".data,
   "tc qdisc add dev eth0 parent 1:100 handle 2: prio\n".data]

theorem claim_C4_witness :
    compile_tc "eth0".data c4w = .ok c4wout ∧
    (c4wout.filter isClassCmd).length = ncQ c4w :=
  ⟨rfl, claim_C4_amended.1 "eth0".data c4w c4wout rfl⟩

/-! ### Claim C7: trailing whitespace -/

/-- Claim C7 (amended): the composed qdisc info string is stripped, so a
qdisc generation command never carries trailing whitespace before its
newline; but the class-creation command is not stripped: with empty options
it ends in a space followed by the newline. -/
theorem claim_C7_amended :
    (∀ (q : QdiscNode) (st : CState) (info : Str) (qid : Nat) (st' : CState),
      qdisc_info q st = .ok (info, qid, st') →
      ∃ l ch, info = l ++ [ch] ∧ ws ch = false) ∧
    (∀ (c : ClassNode) (iface qt : Str) (pqd : Nat) (pcls : Str) (st : CState)
      (out : List Str) (st' : CState),
      tc_class c iface qt pqd pcls st = .ok (out, st') → qt ≠ "prio".data →
      c.options = [] →
      ∃ pre,
        classLine iface pqd pcls (c.idOverride.getD (st.getD pqd 0 + 1))
          qt [] = pre ++ [' ', '\n'] ∧
        classLine iface pqd pcls (c.idOverride.getD (st.getD pqd 0 + 1))
          qt [] ∈ out) := by
  constructor
  · intro q st info qid st' h
    obtain ⟨t, opts, cmt, cls⟩ := q
    cases t with
    | none => simp [qdisc_info] at h
    | some tv =>
      simp only [qdisc_info, get_qdisc_id, Except.ok.injEq, Prod.mk.injEq] at h
      obtain ⟨hinfo, _, _⟩ := h
      rw [strip_info] at hinfo
      rcases rstrip_last_not_ws (" ".data ++ tv ++ " ".data ++ opts) with
        h0 | ⟨l, ch, heq, hch⟩
      · refine ⟨"handle ".data ++ natStr ((st ++
          [(if tv = "prio".data then 1 else 100) - 1]).length - 1), ':', ?_, by decide⟩
        rw [← hinfo, h0, List.append_nil]
      · refine ⟨"handle ".data ++ natStr ((st ++
          [(if tv = "prio".data then 1 else 100) - 1]).length - 1) ++
          ":".data ++ l, ch, ?_, hch⟩
        rw [← hinfo, heq]
        simp [List.append_assoc]
  · intro c iface qt pqd pcls st out st' h hqt hopts
    obtain ⟨idOv, opts, cmt, filters, nested, subcls⟩ := c
    simp only [ClassNode.options] at hopts
    subst hopts
    obtain ⟨outN, outS, stN, _, _, hout⟩ := tc_class_ok_decomp idOv [] cmt
      filters nested subcls iface qt pqd pcls st out st' h
    refine ⟨"tc class add dev ".data ++ iface ++ " parent ".data ++
      natStr pqd ++ ":".data ++ pcls ++ " classid ".data ++ natStr pqd ++
      ":".data ++ natStr (idOv.getD (st.getD pqd 0 + 1)) ++ " ".data ++ qt, ?_, ?_⟩
    · simp only [classLine, ClassNode.idOverride, List.append_assoc,
        List.nil_append, List.append_nil]
      rfl
    · rw [hout]
      simp only [List.mem_append]
      left; left; right
      rw [if_neg hqt]
      simp [ClassNode.idOverride]

/-- Concrete input refuting C7 as stated: an `htb` class with empty options. -/
def c7tree : QdiscNode :=
  .mk (some "htb".data) [] none [.mk none [] none [] none []]

/-- C7 as stated is false on the code: the class-creation command for a class
with empty options ends in a space immediately before its newline (the class
line is not stripped). -/
theorem claim_C7_counterexample :
    (compile_tc "eth0".data c7tree).toOption.map (List.filter isClassCmd) =
      some ["tc class add dev eth0 parent 1: classid 1:100 htb \n".data] ∧
    ("tc class add dev eth0 parent 1: classid 1:100 htb \n".data : Str).reverse.take 2 =
      ['\n', ' '] :=
  ⟨rfl, by decide⟩

/-- Concrete input for the C7 witness: an `htb` qdisc with empty options
registered on a fresh counter. -/
def c7wq : QdiscNode := .mk (some "htb".data) [] none []

theorem claim_C7_witness :
    qdisc_info c7wq counterInit = .ok ("handle 1: htb".data, 1, [0, 99]) ∧
    (∃ l ch, ("handle 1: htb".data : Str) = l ++ [ch] ∧ ws ch = false) :=
  ⟨rfl, claim_C7_amended.1 c7wq counterInit "handle 1: htb".data 1 [0, 99] rfl⟩

/-! ### Counter monotonicity and claim C10 -/

lemma getD_le_append (st : CState) (x : Nat) (i : Nat) :
    st.getD i 0 ≤ (st ++ [x]).getD i 0 := by
  by_cases hi : i < st.length
  · rw [List.getD_eq_getElem?_getD, List.getD_eq_getElem?_getD,
      List.getElem?_append_left hi]
  · rw [List.getD_eq_getElem?_getD st, List.getElem?_eq_none (by omega)]
    simp

lemma getD_le_set_succ (st : CState) (p i : Nat) :
    st.getD i 0 ≤ (st.set p (st.getD p 0 + 1)).getD i 0 := by
  by_cases hp : p < st.length
  · by_cases hip : i = p
    · subst hip
      rw [List.getD_eq_getElem?_getD (st.set i _),
        List.getElem?_set_self hp]
      rw [List.getD_eq_getElem?_getD st]
      simp
    · rw [List.getD_eq_getElem?_getD (st.set p _),
        List.getElem?_set_ne (by omega)]
      rw [List.getD_eq_getElem?_getD st]
  · rw [List.set_eq_of_length_le (by omega)]

mutual

/-- The counters of a `Counters` object never decrease across `_tc_qdisc`. -/
theorem tc_qdisc_mono : ∀ (q : QdiscNode) (iface : Str) (pq : Option Nat)
    (pc : Str) (st : CState) (out : List Str) (st' : CState),
    tc_qdisc q iface pq pc st = .ok (out, st') →
    ∀ i, st.getD i 0 ≤ st'.getD i 0
  | .mk none opts cmt classes, iface, pq, pc, st, out, st', h => by
      simp [tc_qdisc, qdisc_info] at h
  | .mk (some tv) opts cmt classes, iface, pq, pc, st, out, st', h => by
      simp only [tc_qdisc, qdisc_info, get_qdisc_id, Option.getD_some,
        List.length_append, List.length_cons, List.length_nil, Nat.zero_add,
        Nat.add_zero, Nat.add_sub_cancel] at h
      split at h
      · exact Except.noConfusion h
      next out2 st2 hcs =>
        simp only [Except.ok.injEq, Prod.mk.injEq] at h
        obtain ⟨hout, hst⟩ := h
        subst hst
        intro i
        exact Nat.le_trans (getD_le_append st _ i)
          (tc_classes_mono classes _ _ _ _ _ _ _ hcs i)

/-- The counters never decrease across the class loop. -/
theorem tc_classes_mono : ∀ (cs : List ClassNode) (iface qt : Str) (pqd : Nat)
    (pcls : Str) (st : CState) (out : List Str) (st' : CState),
    tc_classes cs iface qt pqd pcls st = .ok (out, st') →
    ∀ i, st.getD i 0 ≤ st'.getD i 0
  | [], iface, qt, pqd, pcls, st, out, st', h => by
      simp only [tc_classes, Except.ok.injEq, Prod.mk.injEq] at h
      obtain ⟨_, hst⟩ := h
      subst hst
      intro i; exact Nat.le_refl _
  | c :: rest, iface, qt, pqd, pcls, st, out, st', h => by
      simp only [tc_classes] at h
      split at h
      · exact Except.noConfusion h
      next out1 st1 hc1 =>
        split at h
        · exact Except.noConfusion h
        next out2 st2 hc2 =>
          simp only [Except.ok.injEq, Prod.mk.injEq] at h
          obtain ⟨_, hst⟩ := h
          subst hst
          intro i
          exact Nat.le_trans (tc_class_mono c _ _ _ _ _ _ _ hc1 i)
            (tc_classes_mono rest _ _ _ _ _ _ _ hc2 i)

/-- The counters never decrease across `_tc_class`. -/
theorem tc_class_mono : ∀ (c : ClassNode) (iface qt : Str) (pqd : Nat)
    (pcls : Str) (st : CState) (out : List Str) (st' : CState),
    tc_class c iface qt pqd pcls st = .ok (out, st') →
    ∀ i, st.getD i 0 ≤ st'.getD i 0
  | .mk idOv opts cmt filters nested subcls, iface, qt, pqd, pcls, st, out, st', h => by
      cases nested with
      | some nq =>
        simp only [tc_class, get_class_id] at h
        split at h
        · exact Except.noConfusion h
        next outN st2 hnq =>
          split at h
          · exact Except.noConfusion h
          next outS st3 hcs =>
            simp only [Except.ok.injEq, Prod.mk.injEq] at h
            obtain ⟨_, hst⟩ := h
            subst hst
            intro i
            exact Nat.le_trans (getD_le_set_succ st pqd i)
              (Nat.le_trans (tc_qdisc_mono nq _ _ _ _ _ _ hnq i)
                (tc_classes_mono subcls _ _ _ _ _ _ _ hcs i))
      | none =>
        simp only [tc_class, get_class_id] at h
        split at h
        · exact Except.noConfusion h
        next outS st3 hcs =>
          simp only [Except.ok.injEq, Prod.mk.injEq] at h
          obtain ⟨_, hst⟩ := h
          subst hst
          intro i
          exact Nat.le_trans (getD_le_set_succ st pqd i)
            (tc_classes_mono subcls _ _ _ _ _ _ _ hcs i)

end

/-- Claim C10 (amended): an explicit `id` field on a class node **is**
exercised by the compilation — `params.update(cls)` replaces the
allocator-assigned id.  All emitted references for that class (filter flow
ids and the class-creation classid) use the override, while the allocator
counter for the owning handle still advances. -/
theorem claim_C10_amended :
    ∀ (c : ClassNode) (iface qt : Str) (pqd : Nat) (pcls : Str) (st : CState)
      (out : List Str) (st' : CState) (k : Nat),
      tc_class c iface qt pqd pcls st = .ok (out, st') →
      c.idOverride = some k → pqd < st.length →
      (∀ m ∈ c.filters,
        filterLine iface (if qt = "htb".data then 1 else pqd) m pqd k ∈ out) ∧
      (qt ≠ "prio".data → classLine iface pqd pcls k qt c.options ∈ out) ∧
      st.getD pqd 0 + 1 ≤ st'.getD pqd 0 := by
  intro c iface qt pqd pcls st out st' k h hk hp
  obtain ⟨idOv, opts, cmt, filters, nested, subcls⟩ := c
  simp only [ClassNode.idOverride] at hk
  subst hk
  obtain ⟨outN, outS, stN, h1, h2, hout⟩ := tc_class_ok_decomp (some k) opts
    cmt filters nested subcls iface qt pqd pcls st out st' h
  have hset : (st.set pqd (st.getD pqd 0 + 1)).getD pqd 0 =
      st.getD pqd 0 + 1 := by
    rw [List.getD_eq_getElem?_getD, List.getElem?_set_self hp]
    rfl
  refine ⟨?_, ?_, ?_⟩
  · intro m hm
    simp only [ClassNode.filters] at hm
    rw [hout]
    simp only [List.mem_append]
    left; left; left; right
    exact List.mem_map.2 ⟨m, hm, by simp⟩
  · intro hqt
    rw [hout]
    simp only [List.mem_append]
    left; left; right
    rw [if_neg hqt]
    simp [ClassNode.options]
  · have hstep : st.getD pqd 0 + 1 ≤ stN.getD pqd 0 := by
      cases nested with
      | some nq =>
        have := tc_qdisc_mono nq _ _ _ _ _ _ h1 pqd
        rw [hset] at this
        exact this
      | none =>
        obtain ⟨_, hstN⟩ := h1
        rw [hstN, hset]
    exact Nat.le_trans hstep (tc_classes_mono subcls _ _ _ _ _ _ _ h2 pqd)

/-- Concrete input refuting C10 as stated: an `htb` class with explicit
`id: 7` and one filter. -/
def c10tree : QdiscNode :=
  .mk (some "htb".data) [] none
    [.mk (some 7) "o10".data none ["m10".data] none []]

/-- C10 as stated is false on the code: with `id: 7` present, both the filter
flow id and the classid use `1:7`, not the allocator-assigned `1:100`. -/
theorem claim_C10_counterexample :
    (compile_tc "eth0".data c10tree).toOption.map
      (List.filter (fun ch => isFilterCmd ch || isClassCmd ch)) =
      some ["tc filter add dev eth0 parent 1: u32 m10 flowid 1:7\n".data,
            "tc class add dev eth0 parent 1: classid 1:7 htb o10\n".data] ∧
    (∀ ch ∈ ["tc filter add dev eth0 parent 1: u32 m10 flowid 1:7\n".data,
             "tc class add dev eth0 parent 1: classid 1:7 htb o10\n".data],
      ¬ (("flowid 1:100".data : Str) <:+: ch) ∧
      ¬ (("classid 1:100".data : Str) <:+: ch)) :=
  ⟨rfl, by decide⟩

/-- Concrete input for the C10 witness: a class with `id: 42` under `htb`. -/
def c10w : ClassNode := .mk (some 42) "o10w".data none ["m10w".data] none []

theorem claim_C10_witness :
    tc_class c10w "eth0".data "htb".data 1 [] [0, 99] =
      .ok (["tc filter add dev eth0 parent 1: u32 m10w flowid 1:42\n".data,
            "tc class add dev eth0 parent 1: classid 1:42 htb o10w\n".data],
           [0, 100]) ∧
    c10w.idOverride = some 42 ∧ 1 < ([0, 99] : CState).length ∧
    ((∀ m ∈ c10w.filters,
        filterLine "eth0".data (if ("htb".data : Str) = "htb".data then 1 else 1)
          m 1 42 ∈
          ["tc filter add dev eth0 parent 1: u32 m10w flowid 1:42\n".data,
           "tc class add dev eth0 parent 1: classid 1:42 htb o10w\n".data]) ∧
      (("htb".data : Str) ≠ "prio".data →
        classLine "eth0".data 1 [] 42 "htb".data c10w.options ∈
          ["tc filter add dev eth0 parent 1: u32 m10w flowid 1:42\n".data,
           "tc class add dev eth0 parent 1: classid 1:42 htb o10w\n".data]) ∧
      List.getD [0, 99] 1 0 + 1 ≤ List.getD [0, 100] 1 0) :=
  ⟨rfl, rfl, by decide,
   claim_C10_amended c10w "eth0".data "htb".data 1 [] [0, 99] _ _ 42 rfl rfl
     (by decide)⟩

/-! ### Claim C8: comment frame property -/

/-- The chunk `_tc_comment` writes for comment `cm`. -/
def commentChunk (cm : Str) : Str := "\n# ".data ++ cm ++ "\n".data

lemma tc_comment_some (cm : Str) : tc_comment (some cm) = [commentChunk cm] := rfl

mutual

/-- A path from a qdisc node to a node of its subtree. -/
inductive QPath : Type where
  | here : QPath
  | child : Nat → CPath → QPath

/-- A path from a class node to a node of its subtree. -/
inductive CPath : Type where
  | here : CPath
  | nest : QPath → CPath
  | sub : Nat → CPath → CPath

end

mutual

/-- The comment carried by the node a path points to. -/
def commentAtQ : QPath → QdiscNode → Option Str
  | .here, .mk _ _ cmt _ => cmt
  | .child i p, .mk _ _ _ cls => commentAtCs i p cls

def commentAtCs : Nat → CPath → List ClassNode → Option Str
  | _, _, [] => none
  | 0, p, c :: _ => commentAtC p c
  | i + 1, p, _ :: rest => commentAtCs i p rest

def commentAtC : CPath → ClassNode → Option Str
  | .here, .mk _ _ cmt _ _ _ => cmt
  | .nest p, .mk _ _ _ _ nq _ =>
    (match nq with
     | some q => commentAtQ p q
     | none => none)
  | .sub i p, .mk _ _ _ _ _ cls => commentAtCs i p cls

end

mutual

/-- Remove the comment of the node a path points to. -/
def removeCommentQ : QPath → QdiscNode → Option QdiscNode
  | .here, .mk t o _ cls => some (.mk t o none cls)
  | .child i p, .mk t o cmt cls =>
    (removeCommentCs i p cls).map (fun cls' => .mk t o cmt cls')

def removeCommentCs : Nat → CPath → List ClassNode → Option (List ClassNode)
  | _, _, [] => none
  | 0, p, c :: rest => (removeCommentC p c).map (· :: rest)
  | i + 1, p, c :: rest => (removeCommentCs i p rest).map (c :: ·)

def removeCommentC : CPath → ClassNode → Option ClassNode
  | .here, .mk idv o _ f nq cls => some (.mk idv o none f nq cls)
  | .nest p, .mk idv o cmt f nq cls =>
    (match nq with
     | some q => (removeCommentQ p q).map
         (fun q' => ClassNode.mk idv o cmt f (some q') cls)
     | none => none)
  | .sub i p, .mk idv o cmt f nq cls =>
    (removeCommentCs i p cls).map (fun cls' => .mk idv o cmt f nq cls')

end

/-- Concrete input refuting C8 as stated: removing the class comment changes
the script by two lines (the comment chunk is a blank separator line plus the
comment line), not by exactly one. -/
def c8tree : QdiscNode :=
  .mk (some "htb".data) [] none [.mk none "o8".data (some "note".data) [] none []]

/-- `c8tree` with the class comment removed. -/
def c8tree' : QdiscNode :=
  .mk (some "htb".data) [] none [.mk none "o8".data none [] none []]

theorem claim_C8_counterexample :
    (compile_tc "eth0".data c8tree).toOption.map
      (fun out => (linesOf (textOf out)).length) = some 10 ∧
    (compile_tc "eth0".data c8tree').toOption.map
      (fun out => (linesOf (textOf out)).length) = some 8 ∧
    (10 : Nat) ≠ 8 + 1 :=
  ⟨rfl, rfl, by decide⟩

mutual

/-- Removing the comment at a path through a qdisc subtree removes exactly
the corresponding comment chunk from `_tc_qdisc`'s output, leaves every
other chunk unchanged, and leaves the final counter state unchanged. -/
theorem frameQ : ∀ (p : QPath) (q q' : QdiscNode) (cm : Str) (iface : Str)
    (pq : Option Nat) (pc : Str) (st : CState) (out : List Str) (st' : CState),
    removeCommentQ p q = some q' → commentAtQ p q = some cm →
    tc_qdisc q iface pq pc st = .ok (out, st') →
    ∃ pre post, out = pre ++ commentChunk cm :: post ∧
      tc_qdisc q' iface pq pc st = .ok (pre ++ post, st')
  | .here, .mk t o cmq cls, q', cm, iface, pq, pc, st, out, st', hrem, hcm, h => by
      simp only [removeCommentQ, Option.some.injEq] at hrem
      subst hrem
      simp only [commentAtQ] at hcm
      subst hcm
      cases t with
      | none => simp [tc_qdisc, qdisc_info] at h
      | some tv =>
        simp only [tc_qdisc, qdisc_info, get_qdisc_id, Option.getD_some,
          List.length_append, List.length_cons, List.length_nil, Nat.zero_add,
          Nat.add_zero, Nat.add_sub_cancel] at h
        split at h
        · exact Except.noConfusion h
        next out2 st2 hcs =>
          simp only [Except.ok.injEq, Prod.mk.injEq] at h
          obtain ⟨hout, hst⟩ := h
          subst hout hst
          refine ⟨[], _, rfl, ?_⟩
          simp only [tc_qdisc, qdisc_info, get_qdisc_id, Option.getD_some,
            List.length_append, List.length_cons, List.length_nil, Nat.zero_add,
            Nat.add_zero, Nat.add_sub_cancel, hcs]
          rfl
  | .child i p, .mk t o cmq cls, q', cm, iface, pq, pc, st, out, st', hrem, hcm, h => by
      simp only [removeCommentQ] at hrem
      obtain ⟨cls', hremcs, hq'⟩ := Option.map_eq_some'.1 hrem
      subst hq'
      simp only [commentAtQ] at hcm
      cases t with
      | none => simp [tc_qdisc, qdisc_info] at h
      | some tv =>
        simp only [tc_qdisc, qdisc_info, get_qdisc_id, Option.getD_some,
          List.length_append, List.length_cons, List.length_nil, Nat.zero_add,
          Nat.add_zero, Nat.add_sub_cancel] at h
        split at h
        · exact Except.noConfusion h
        next out2 st2 hcs =>
          simp only [Except.ok.injEq, Prod.mk.injEq] at h
          obtain ⟨hout, hst⟩ := h
          subst hout hst
          obtain ⟨pre0, post0, hsplit, hrun⟩ := frameCs i p cls cls' cm iface
            tv st.length [] (st ++ [(if tv = "prio".data then 1 else 100) - 1])
            out2 st2 hremcs hcm hcs
          subst hsplit
          refine ⟨tc_comment cmq ++
            qdiscLine iface
              (match pq with
               | some p => "parent ".data ++ natStr p ++ ":".data ++ pc
               | none => "root".data)
              (strip ("handle ".data ++ natStr st.length ++ ": ".data ++ tv ++
                " ".data ++ o)) :: pre0, post0, ?_, ?_⟩
          · simp [List.append_assoc]
          · simp only [tc_qdisc, qdisc_info, get_qdisc_id, Option.getD_some,
              List.length_append, List.length_cons, List.length_nil,
              Nat.zero_add, Nat.add_zero, Nat.add_sub_cancel, hrun]
            simp [List.append_assoc]

/-- Frame property of the class loop. -/
theorem frameCs : ∀ (i : Nat) (p : CPath) (cs cs' : List ClassNode) (cm : Str)
    (iface qt : Str) (pqd : Nat) (pcls : Str) (st : CState) (out : List Str)
    (st' : CState),
    removeCommentCs i p cs = some cs' → commentAtCs i p cs = some cm →
    tc_classes cs iface qt pqd pcls st = .ok (out, st') →
    ∃ pre post, out = pre ++ commentChunk cm :: post ∧
      tc_classes cs' iface qt pqd pcls st = .ok (pre ++ post, st')
  | i, p, [], cs', cm, iface, qt, pqd, pcls, st, out, st', hrem, hcm, h => by
      cases i <;> simp [removeCommentCs] at hrem
  | 0, p, c :: rest, cs', cm, iface, qt, pqd, pcls, st, out, st', hrem, hcm, h => by
      simp only [removeCommentCs] at hrem
      obtain ⟨c', hremc, hcs'⟩ := Option.map_eq_some'.1 hrem
      subst hcs'
      simp only [commentAtCs] at hcm
      simp only [tc_classes] at h
      split at h
      · exact Except.noConfusion h
      next out1 st1 hc1 =>
        split at h
        · exact Except.noConfusion h
        next out2 st2 hc2 =>
          simp only [Except.ok.injEq, Prod.mk.injEq] at h
          obtain ⟨hout, hst⟩ := h
          subst hout hst
          obtain ⟨pre0, post0, hsplit, hrun⟩ := frameC p c c' cm iface qt pqd
            pcls st out1 st1 hremc hcm hc1
          subst hsplit
          refine ⟨pre0, post0 ++ out2, ?_, ?_⟩
          · simp [List.append_assoc]
          · simp only [tc_classes, hrun, hc2]
            simp [List.append_assoc]
  | i + 1, p, c :: rest, cs', cm, iface, qt, pqd, pcls, st, out, st', hrem, hcm, h => by
      simp only [removeCommentCs] at hrem
      obtain ⟨rest', hremr, hcs'⟩ := Option.map_eq_some'.1 hrem
      subst hcs'
      simp only [commentAtCs] at hcm
      simp only [tc_classes] at h
      split at h
      · exact Except.noConfusion h
      next out1 st1 hc1 =>
        split at h
        · exact Except.noConfusion h
        next out2 st2 hc2 =>
          simp only [Except.ok.injEq, Prod.mk.injEq] at h
          obtain ⟨hout, hst⟩ := h
          subst hout hst
          obtain ⟨pre0, post0, hsplit, hrun⟩ := frameCs i p rest rest' cm iface
            qt pqd pcls st1 out2 st2 hremr hcm hc2
          subst hsplit
          refine ⟨out1 ++ pre0, post0, ?_, ?_⟩
          · simp [List.append_assoc]
          · simp only [tc_classes, hc1, hrun]
            simp [List.append_assoc]

/-- Frame property of one class rendering. -/
theorem frameC : ∀ (p : CPath) (c c' : ClassNode) (cm : Str) (iface qt : Str)
    (pqd : Nat) (pcls : Str) (st : CState) (out : List Str) (st' : CState),
    removeCommentC p c = some c' → commentAtC p c = some cm →
    tc_class c iface qt pqd pcls st = .ok (out, st') →
    ∃ pre post, out = pre ++ commentChunk cm :: post ∧
      tc_class c' iface qt pqd pcls st = .ok (pre ++ post, st')
  | .here, .mk idv o cmc f nq cls, c', cm, iface, qt, pqd, pcls, st, out, st', hrem, hcm, h => by
      simp only [removeCommentC, Option.some.injEq] at hrem
      subst hrem
      simp only [commentAtC] at hcm
      subst hcm
      cases nq with
      | some q0 =>
        simp only [tc_class, get_class_id] at h
        split at h
        · exact Except.noConfusion h
        next outN stN hnq =>
          split at h
          · exact Except.noConfusion h
          next outS st3 hcs =>
            simp only [Except.ok.injEq, Prod.mk.injEq] at h
            obtain ⟨hout, hst⟩ := h
            subst hout hst
            refine ⟨[], f.map (fun m => filterLine iface
                (if qt = "htb".data then 1 else pqd) m pqd
                (idv.getD (st.getD pqd 0 + 1))) ++
              (if qt = "prio".data then [] else
                [classLine iface pqd pcls (idv.getD (st.getD pqd 0 + 1)) qt o]) ++
              outN ++ outS, ?_, ?_⟩
            · rw [tc_comment_some]
              simp [List.append_assoc]
            · simp only [tc_class, get_class_id, hnq, hcs]
              simp [tc_comment, List.append_assoc]
      | none =>
        simp only [tc_class, get_class_id] at h
        split at h
        · exact Except.noConfusion h
        next outS st3 hcs =>
          simp only [Except.ok.injEq, Prod.mk.injEq] at h
          obtain ⟨hout, hst⟩ := h
          subst hout hst
          refine ⟨[], f.map (fun m => filterLine iface
              (if qt = "htb".data then 1 else pqd) m pqd
              (idv.getD (st.getD pqd 0 + 1))) ++
            (if qt = "prio".data then [] else
              [classLine iface pqd pcls (idv.getD (st.getD pqd 0 + 1)) qt o]) ++
            outS, ?_, ?_⟩
          · rw [tc_comment_some]
            simp [List.append_assoc]
          · simp only [tc_class, get_class_id, hcs]
            simp [tc_comment, List.append_assoc]
  | .nest p, .mk idv o cmc f nq cls, c', cm, iface, qt, pqd, pcls, st, out, st', hrem, hcm, h => by
      cases nq with
      | none => simp [removeCommentC] at hrem
      | some q0 =>
        simp only [removeCommentC] at hrem
        obtain ⟨q0', hremq, hc'⟩ := Option.map_eq_some'.1 hrem
        subst hc'
        simp only [commentAtC] at hcm
        simp only [tc_class, get_class_id] at h
        split at h
        · exact Except.noConfusion h
        next outN stN hnq =>
          split at h
          · exact Except.noConfusion h
          next outS st3 hcs =>
            simp only [Except.ok.injEq, Prod.mk.injEq] at h
            obtain ⟨hout, hst⟩ := h
            subst hout hst
            obtain ⟨pre0, post0, hsplit, hrun⟩ := frameQ p q0 q0' cm iface
              (some pqd) (natStr (idv.getD (st.getD pqd 0 + 1)))
              (st.set pqd (st.getD pqd 0 + 1)) outN stN hremq hcm hnq
            subst hsplit
            refine ⟨tc_comment cmc ++
              f.map (fun m => filterLine iface
                (if qt = "htb".data then 1 else pqd) m pqd
                (idv.getD (st.getD pqd 0 + 1))) ++
              (if qt = "prio".data then [] else
                [classLine iface pqd pcls (idv.getD (st.getD pqd 0 + 1)) qt o]) ++
              pre0, post0 ++ outS, ?_, ?_⟩
            · simp [List.append_assoc]
            · simp only [tc_class, get_class_id, hrun, hcs]
              simp [List.append_assoc]
  | .sub i p, .mk idv o cmc f nq cls, c', cm, iface, qt, pqd, pcls, st, out, st', hrem, hcm, h => by
      simp only [removeCommentC] at hrem
      obtain ⟨cls', hremcs, hc'⟩ := Option.map_eq_some'.1 hrem
      subst hc'
      simp only [commentAtC] at hcm
      cases nq with
      | some q0 =>
        simp only [tc_class, get_class_id] at h
        split at h
        · exact Except.noConfusion h
        next outN stN hnq =>
          split at h
          · exact Except.noConfusion h
          next outS st3 hcs =>
            simp only [Except.ok.injEq, Prod.mk.injEq] at h
            obtain ⟨hout, hst⟩ := h
            subst hout hst
            obtain ⟨pre0, post0, hsplit, hrun⟩ := frameCs i p cls cls' cm iface
              qt pqd (natStr (idv.getD (st.getD pqd 0 + 1))) stN outS st3
              hremcs hcm hcs
            subst hsplit
            refine ⟨tc_comment cmc ++
              f.map (fun m => filterLine iface
                (if qt = "htb".data then 1 else pqd) m pqd
                (idv.getD (st.getD pqd 0 + 1))) ++
              (if qt = "prio".data then [] else
                [classLine iface pqd pcls (idv.getD (st.getD pqd 0 + 1)) qt o]) ++
              outN ++ pre0, post0, ?_, ?_⟩
            · simp [List.append_assoc]
            · simp only [tc_class, get_class_id, hnq, hrun]
              simp [List.append_assoc]
      | none =>
        simp only [tc_class, get_class_id] at h
        split at h
        · exact Except.noConfusion h
        next outS st3 hcs =>
          simp only [Except.ok.injEq, Prod.mk.injEq] at h
          obtain ⟨hout, hst⟩ := h
          subst hout hst
          obtain ⟨pre0, post0, hsplit, hrun⟩ := frameCs i p cls cls' cm iface
            qt pqd (natStr (idv.getD (st.getD pqd 0 + 1)))
            (st.set pqd (st.getD pqd 0 + 1)) outS st3 hremcs hcm hcs
          subst hsplit
          refine ⟨tc_comment cmc ++
            f.map (fun m => filterLine iface
              (if qt = "htb".data then 1 else pqd) m pqd
              (idv.getD (st.getD pqd 0 + 1))) ++
            (if qt = "prio".data then [] else
              [classLine iface pqd pcls (idv.getD (st.getD pqd 0 + 1)) qt o]) ++
            pre0, post0, ?_, ?_⟩
          · simp [List.append_assoc]
          · simp only [tc_class, get_class_id, hrun]
            simp [List.append_assoc]

end

/-- Claim C8 (amended): removing the `comment` field of a node removes
exactly the corresponding comment chunk — a blank separator line plus the
comment line — from the script, and nothing else changes.  For a non-root
node the chunk occurs once; the root node's comment is emitted twice (once
by `_compile_tc` before the reset command and once by `_tc_qdisc`), so
removing it removes both occurrences. -/
theorem claim_C8_amended :
    (∀ (q q' : QdiscNode) (cm : Str) (i : Nat) (p : CPath) (iface : Str)
      (out : List Str),
      removeCommentQ (.child i p) q = some q' →
      commentAtQ (.child i p) q = some cm →
      compile_tc iface q = .ok out →
      ∃ pre post, out = pre ++ commentChunk cm :: post ∧
        compile_tc iface q' = .ok (pre ++ post)) ∧
    (∀ (q q' : QdiscNode) (cm : Str) (iface : Str) (out : List Str),
      removeCommentQ .here q = some q' → commentAtQ .here q = some cm →
      compile_tc iface q = .ok out →
      ∃ pre mid post,
        out = pre ++ commentChunk cm :: mid ++ commentChunk cm :: post ∧
        compile_tc iface q' = .ok (pre ++ mid ++ post)) := by
  constructor
  · intro q q' cm i p iface out hrem hcm hcomp
    obtain ⟨body, st1, hq, rfl⟩ := compile_tc_ok iface q _ hcomp
    obtain ⟨pre0, post0, hsplit, hrun⟩ := frameQ (.child i p) q q' cm iface
      none [] counterInit body st1 hrem hcm hq
    subst hsplit
    have hcomment : q'.comment = q.comment := by
      obtain ⟨t, o, cmq, cls⟩ := q
      simp only [removeCommentQ] at hrem
      obtain ⟨cls', _, hq'⟩ := Option.map_eq_some'.1 hrem
      subst hq'
      rfl
    refine ⟨preamble iface ++ tc_comment q.comment ++ resetLine iface :: pre0,
      post0, ?_, ?_⟩
    · simp [List.append_assoc]
    · simp only [compile_tc, hrun, hcomment]
      simp [List.append_assoc]
  · intro q q' cm iface out hrem hcm hcomp
    obtain ⟨body, st1, hq, rfl⟩ := compile_tc_ok iface q _ hcomp
    obtain ⟨pre0, post0, hsplit, hrun⟩ := frameQ .here q q' cm iface none []
      counterInit body st1 hrem hcm hq
    subst hsplit
    have hqcm : q.comment = some cm := by
      obtain ⟨t, o, cmq, cls⟩ := q
      simpa [commentAtQ, QdiscNode.comment] using hcm
    have hq'cm : q'.comment = none := by
      obtain ⟨t, o, cmq, cls⟩ := q
      simp only [removeCommentQ, Option.some.injEq] at hrem
      subst hrem
      rfl
    refine ⟨preamble iface, resetLine iface :: pre0, post0, ?_, ?_⟩
    · rw [hqcm, tc_comment_some]
      simp [List.append_assoc]
    · simp only [compile_tc, hrun, hq'cm]
      simp [tc_comment, List.append_assoc]

/-- The script compiled from `c8tree`. -/
def c8out : List Str :=
  ["#!/bin/bash\n".data, "set -e\n\n".data,
   "## AUTOGENERATED TC FOR eth0 - DO NOT EDIT ##\n".data,
   "tc qdisc del dev eth0 root || true\n".data,
   "tc qdisc add dev eth0 root handle 1: htb\n".data,
   "\n# note\n".data,
   "tc class add dev eth0 parent 1: classid 1:100 htb o8\n".data]

theorem claim_C8_witness :
    removeCommentQ (.child 0 .here) c8tree = some c8tree' ∧
    commentAtQ (.child 0 .here) c8tree = some "note".data ∧
    compile_tc "eth0".data c8tree = .ok c8out ∧
    (∃ pre post, c8out = pre ++ commentChunk "note".data :: post ∧
      compile_tc "eth0".data c8tree' = .ok (pre ++ post)) :=
  ⟨rfl, rfl, rfl,
   claim_C8_amended.1 c8tree c8tree' "note".data 0 .here "eth0".data c8out
     rfl rfl rfl⟩
